import Mathlib

/-!
ModularSynthPlugins: the VCO oscillator core (`src/VCO.cpp`).

A shallow embedding of `VoltageControlledOscillator` (phase integrator, crossing
detector, naive waveform evaluators) and the properties of its per-sample tick.

Arithmetic model.

The source computes on `float` / `simd::float_4`.  A lane value is modelled by `Flt`:
a rational number, or one of the three IEEE special values `+inf`, `-inf`, `NaN`.  The
sign of zero is not modelled (a single zero, dividing by it behaves as dividing by `+0`).

The oscillator is embedded twice.  `VoltageControlledOscillator.process` computes every
operation exactly (`0.35f` is `7/20`); it carries the properties that do not depend on
rounding: ranges, clamps, the structure of the tick, lane routing.  `Binary32.process`
rounds every operation to the nearest binary32 number, ties to even, as the source does;
it carries what the crossing detector and the shaping curve do on concrete inputs, where
rounding decides.  Both model that dividing by a zero step gives an infinity or NaN and
that every ordered comparison with NaN is false.

`simd::float_4` is a function `Fin 4 → Flt`; the vector operations of the source are
lane-wise.  The helpers of the Rack SDK that the source calls (`simd::clamp`,
`simd::floor`, `simd::trunc`, `simd::movemask`, `simd::movemaskInverse`, `simd::ifelse`)
are modelled by their SSE definitions.  The band-limited step generator
`dsp::MinBlepGenerator` is an external collaborator: it is a parameter of the model.

The module `VCO` is modelled as far as its `process` reads and writes the host: parameter
values, the channel count and channel voltages of its ports, and `dsp::exp2_taylor5` as a
parameter.  Indexing `oscillators[4]` outside the array has no result (`Option`).

`ScalarVoice` is not code of the repository: it is the single-voice oscillator that the
specification describes, against which the lanes of the vector code are compared.
-/

namespace ModularSynth

/-! ## Lane values -/

/-- A `float` with exact (rational) finite part and the IEEE special values. -/
inductive Flt where
  | fin (q : ℚ)
  | pinf
  | ninf
  | nan
  deriving DecidableEq

namespace Flt

/-- IEEE negation. -/
def neg : Flt → Flt
  | fin a => fin (-a)
  | pinf => ninf
  | ninf => pinf
  | nan => nan

/-- IEEE addition without rounding: `inf + (-inf)` is NaN. -/
def add : Flt → Flt → Flt
  | fin a, fin b => fin (a + b)
  | fin _, pinf => pinf
  | fin _, ninf => ninf
  | pinf, fin _ => pinf
  | pinf, pinf => pinf
  | ninf, fin _ => ninf
  | ninf, ninf => ninf
  | pinf, ninf => nan
  | ninf, pinf => nan
  | nan, _ => nan
  | _, nan => nan

/-- IEEE subtraction: `a - b = a + (-b)`. -/
def sub (a b : Flt) : Flt := add a (neg b)

/-- The infinity with the sign of `s`, NaN when `s = 0` (the product `inf * s`). -/
def infTimes (s : ℚ) : Flt :=
  if 0 < s then pinf else if s < 0 then ninf else nan

/-- IEEE multiplication without rounding: `0 * inf` is NaN. -/
def mul : Flt → Flt → Flt
  | fin a, fin b => fin (a * b)
  | fin a, pinf => infTimes a
  | fin a, ninf => infTimes (-a)
  | pinf, fin b => infTimes b
  | ninf, fin b => infTimes (-b)
  | pinf, pinf => pinf
  | ninf, ninf => pinf
  | pinf, ninf => ninf
  | ninf, pinf => ninf
  | nan, _ => nan
  | _, nan => nan

/-- IEEE division without rounding.  A finite non-zero value divided by zero is the
infinity with the sign of the numerator, `0 / 0` and `inf / inf` are NaN. -/
def div : Flt → Flt → Flt
  | fin a, fin b => if b = 0 then infTimes a else fin (a / b)
  | fin _, pinf => fin 0
  | fin _, ninf => fin 0
  | pinf, fin b => if 0 ≤ b then pinf else ninf
  | ninf, fin b => if 0 ≤ b then ninf else pinf
  | pinf, pinf => nan
  | pinf, ninf => nan
  | ninf, pinf => nan
  | ninf, ninf => nan
  | nan, _ => nan
  | _, nan => nan

instance : Neg Flt := ⟨neg⟩
instance : Add Flt := ⟨add⟩
instance : Sub Flt := ⟨sub⟩
instance : Mul Flt := ⟨mul⟩
instance : Div Flt := ⟨div⟩

/-- The ordered comparison `a < b` of the source (false as soon as one side is NaN). -/
def lt : Flt → Flt → Bool
  | fin a, fin b => decide (a < b)
  | fin _, pinf => true
  | ninf, fin _ => true
  | ninf, pinf => true
  | _, _ => false

/-- The ordered comparison `a <= b` of the source (false as soon as one side is NaN). -/
def le : Flt → Flt → Bool
  | fin a, fin b => decide (a ≤ b)
  | fin _, pinf => true
  | ninf, fin _ => true
  | ninf, pinf => true
  | pinf, pinf => true
  | ninf, ninf => true
  | _, _ => false

/-- The lane of `simd::fmax(a, b)`, which is `_mm_max_ps`: `a > b ? a : b`
(so the second operand when one of them is NaN). -/
def fmax (a b : Flt) : Flt := if lt b a then a else b

/-- The lane of `simd::fmin(a, b)`, which is `_mm_min_ps`: `a < b ? a : b`. -/
def fmin (a b : Flt) : Flt := if lt a b then a else b

/-- The lane of `simd::clamp(x, a, b)`, defined by the SDK as `fmin(fmax(x, a), b)`. -/
def clamp (x a b : Flt) : Flt := fmin (fmax x a) b

/-- The lane of `simd::floor`: the largest integer not above a finite value. -/
def floor : Flt → Flt
  | fin a => fin (⌊a⌋ : ℤ)
  | x => x

/-- The lane of `simd::trunc`: rounding toward zero. -/
def trunc : Flt → Flt
  | fin a => fin (if 0 ≤ a then (⌊a⌋ : ℤ) else (⌈a⌉ : ℤ))
  | x => x

/-- The lane of `simd::ifelse(mask, a, b)`. -/
def ifelse (mask : Bool) (a b : Flt) : Flt := if mask then a else b

end Flt

/-- The vector type `simd::float_4`: four lanes. -/
abbrev float_4 := Fin 4 → Flt

/-- The bit set `simd::movemask(mask)`: bit `i` is the truth value of lane `i`. -/
def movemask (mask : Fin 4 → Bool) : Nat :=
  (if mask 0 then 1 else 0) + (if mask 1 then 2 else 0) +
    (if mask 2 then 4 else 0) + (if mask 3 then 8 else 0)

/-- The lane mask `simd::movemaskInverse<float_4>(x)`: lane `j` is all ones exactly when
bit `j` of `x` is set. -/
def movemaskInverse (x : Nat) : Fin 4 → Bool := fun j => x.testBit j

/-- The bitwise `mask & v` of a lane mask with a broadcast value: `v` in the lanes that
are all ones, `+0` in the others. -/
def maskAnd (mask : Fin 4 → Bool) (v : Flt) : float_4 :=
  fun j => if mask j then v else Flt.fin 0

/-- The indexed read `v[i]` of a lane; the source only reads lanes whose mask bit is set,
which are below 4. -/
def laneAt (v : float_4) (i : Nat) : Flt :=
  if h : i < 4 then v ⟨i, h⟩ else Flt.nan

/-! ## The external corrector -/

/-- The interface of `dsp::MinBlepGenerator<QUALITY, OVERSAMPLE, T>` that the oscillator
uses, over a state type `σ`: `insertDiscontinuity(p, x)` and `process()`. -/
structure MinBlepGenerator (σ : Type) where
  insertDiscontinuity : Flt → float_4 → σ → σ
  process : σ → float_4 × σ

/-- A call received by a corrector. -/
inductive Call where
  | insert (p : Flt) (x : float_4)
  | process
  deriving DecidableEq

/-- A corrector that records the calls it receives, in order, and answers every
`process()` with the fixed value `r`. -/
def recorder (r : float_4) : MinBlepGenerator (List Call) where
  insertDiscontinuity := fun p x s => s ++ [Call.insert p x]
  process := fun s => (r, s ++ [Call.process])

/-! ## The oscillator -/

/-- The curve `expCurve(x) = (3 + x * (-13 + 5 * x)) / (3 + 2 * x)`. -/
def expCurve (x : Flt) : Flt :=
  (Flt.fin 3 + x * (Flt.fin (-13) + Flt.fin 5 * x)) / (Flt.fin 3 + Flt.fin 2 * x)

/-- The fields of `VoltageControlledOscillator<OVERSAMPLE, QUALITY, float_4>`; `σ` is the
state of a `dsp::MinBlepGenerator`. -/
structure VoltageControlledOscillator (σ : Type) where
  analog : Bool
  soft : Bool
  syncEnabled : Bool
  channels : Int
  phase : float_4
  freq : float_4
  pulseWidth : float_4
  sqrMinBlep : σ
  sawMinBlep : σ
  sqrValue : float_4
  sawValue : float_4

namespace VoltageControlledOscillator

variable {σ : Type}

/-- The oscillator as constructed: the member initialisers of the source. -/
def init (s₁ s₂ : σ) : VoltageControlledOscillator σ where
  analog := false
  soft := false
  syncEnabled := false
  channels := 0
  phase := fun _ => Flt.fin 0
  freq := fun _ => Flt.fin 0
  pulseWidth := fun _ => Flt.fin (1 / 2)
  sqrMinBlep := s₁
  sawMinBlep := s₂
  sqrValue := fun _ => Flt.fin 0
  sawValue := fun _ => Flt.fin 0

/-- The method `setPulseWidth(pulseWidth)`: clamp to `[pwMin, 1 - pwMin]`, `pwMin = 0.01`. -/
def setPulseWidth (o : VoltageControlledOscillator σ) (pulseWidth : float_4) :
    VoltageControlledOscillator σ :=
  { o with pulseWidth := fun i =>
      Flt.clamp (pulseWidth i) (Flt.fin (1 / 100)) (Flt.fin (1 - 1 / 100)) }

/-- The local `deltaPhase = simd::clamp(freq * deltaTime, 0.f, 0.35f)` of `process`. -/
def deltaPhase (o : VoltageControlledOscillator σ) (deltaTime : Flt) : float_4 :=
  fun i => Flt.clamp (o.freq i * deltaTime) (Flt.fin 0) (Flt.fin (7 / 20))

/-- The member `phase` after `phase += deltaPhase; phase -= simd::floor(phase);`. -/
def advance (o : VoltageControlledOscillator σ) (deltaTime : Flt) : float_4 :=
  fun i =>
    let phase := o.phase i + o.deltaPhase deltaTime i
    phase - Flt.floor phase

/-- The crossing fraction `(T - (phase - deltaPhase)) / deltaPhase` that `process`
computes for a threshold vector `T`, with `phase` the already advanced member. -/
def crossing (o : VoltageControlledOscillator σ) (deltaTime : Flt) (T : float_4) : float_4 :=
  fun i => (T i - (o.advance deltaTime i - o.deltaPhase deltaTime i)) / o.deltaPhase deltaTime i

/-- The local `pulseCrossing` of `process`. -/
def pulseCrossing (o : VoltageControlledOscillator σ) (deltaTime : Flt) : float_4 :=
  o.crossing deltaTime o.pulseWidth

/-- The local `halfCrossing` of `process`. -/
def halfCrossing (o : VoltageControlledOscillator σ) (deltaTime : Flt) : float_4 :=
  o.crossing deltaTime (fun _ => Flt.fin (1 / 2))

/-- The lane test `(0 < c) & (c <= 1.f)` of `process`. -/
def crossed (c : Flt) : Bool := Flt.lt (Flt.fin 0) c && Flt.le c (Flt.fin 1)

/-- The bit set `simd::movemask((0 < c) & (c <= 1.f))`. -/
def crossingMask (c : float_4) : Nat := movemask (fun i => crossed (c i))

/-- The insertion loops of `process`:
`if (m) for (i = 0; i < channels; i++) if (m & (1 << i)) blep.insertDiscontinuity(c[i] - 1.f,
movemaskInverse(1 << i) & (-2.f));` as the list of argument pairs, in call order. -/
def insertions (channels : Int) (m : Nat) (c : float_4) : List (Flt × float_4) :=
  if m ≠ 0 then
    (List.range channels.toNat).filterMap fun i =>
      if m &&& (1 <<< i) ≠ 0 then
        some (laneAt c i - Flt.fin 1, maskAnd (movemaskInverse (1 <<< i)) (Flt.fin (-2)))
      else none
  else []

/-- The discontinuities `process` inserts into `sqrMinBlep` in one call. -/
def pulseInsertions (o : VoltageControlledOscillator σ) (deltaTime : Flt) :
    List (Flt × float_4) :=
  insertions o.channels (crossingMask (o.pulseCrossing deltaTime)) (o.pulseCrossing deltaTime)

/-- The discontinuities `process` inserts into `sawMinBlep` in one call. -/
def halfInsertions (o : VoltageControlledOscillator σ) (deltaTime : Flt) :
    List (Flt × float_4) :=
  insertions o.channels (crossingMask (o.halfCrossing deltaTime)) (o.halfCrossing deltaTime)

/-- The method `saw(phase)`: the naive saw, linear or shaped by `expCurve`. -/
def saw (o : VoltageControlledOscillator σ) (phase : float_4) : float_4 :=
  fun i =>
    let x := phase i + Flt.fin (1 / 2)
    let x := x - Flt.trunc x
    if o.analog then -expCurve x else Flt.fin 2 * x - Flt.fin 1

/-- The method `sqr(phase)`: `simd::ifelse(phase < pulseWidth, 1.f, -1.f)`. -/
def sqr (o : VoltageControlledOscillator σ) (phase : float_4) : float_4 :=
  fun i => Flt.ifelse (Flt.lt (phase i) (o.pulseWidth i)) (Flt.fin 1) (Flt.fin (-1))

/-- The method `process(deltaTime, syncValue)`: one sample tick. -/
def process (M : MinBlepGenerator σ) (deltaTime : Flt) (_syncValue : float_4)
    (o : VoltageControlledOscillator σ) : VoltageControlledOscillator σ :=
  -- Advance phase
  let phase := o.advance deltaTime
  -- Jump sqr when crossing `pulseWidth`
  let sqrMinBlep := (o.pulseInsertions deltaTime).foldl
    (fun s e => M.insertDiscontinuity e.1 e.2 s) o.sqrMinBlep
  -- Jump saw when crossing 0.5
  let sawMinBlep := (o.halfInsertions deltaTime).foldl
    (fun s e => M.insertDiscontinuity e.1 e.2 s) o.sawMinBlep
  -- Square
  let sqrOut := M.process sqrMinBlep
  -- Saw
  let sawOut := M.process sawMinBlep
  { o with
    phase := phase
    sqrMinBlep := sqrOut.2
    sawMinBlep := sawOut.2
    sqrValue := fun i => o.sqr phase i + sqrOut.1 i
    sawValue := fun i => o.saw phase i + sawOut.1 i }

end VoltageControlledOscillator

/-! ## Observing the corrector calls -/

/-- The number of insertions of a list that concern lane `j`: those whose amplitude
vector is non-zero in lane `j`. -/
def laneCount (j : Fin 4) (es : List (Flt × float_4)) : Nat :=
  es.countP fun e => decide (e.2 j ≠ Flt.fin 0)

/-- The number of `insertDiscontinuity` calls of a recorded trace that concern lane `j`. -/
def insertsFor (j : Fin 4) (t : List Call) : Nat :=
  t.countP fun c =>
    match c with
    | Call.insert _ x => decide (x j ≠ Flt.fin 0)
    | Call.process => false

/-- The recorded form of a list of insertions. -/
def asCalls (es : List (Flt × float_4)) : List Call :=
  es.map fun e => Call.insert e.1 e.2

/-- The phase wrap of the specification: `wrap(x) = x - floor(x)`. -/
def wrap (x : ℚ) : ℚ := x - (⌊x⌋ : ℤ)

/-- An oscillator as constructed, with lane 0 active, pulse width 0.95 and 13230 Hz
(a step of 0.3 at 44100 Hz). -/
def edgeStart : VoltageControlledOscillator (List Call) :=
  { VoltageControlledOscillator.init [] [] with
    channels := 1
    freq := fun _ => Flt.fin 13230
    pulseWidth := fun _ => Flt.fin (19 / 20) }

/-- The oscillator `edgeStart` after `k` calls of `process` at 44100 Hz. -/
def edgeRun (k : Nat) : VoltageControlledOscillator (List Call) :=
  (VoltageControlledOscillator.process (recorder fun _ => Flt.fin 0) (Flt.fin (1 / 44100))
    (fun _ => Flt.fin 0))^[k] edgeStart

/-- The shaping curve of the specification: `shape(x) = (3 + x(-13 + 5x)) / (3 + 2x)` on
exact numbers. -/
def shape (x : ℚ) : ℚ := (3 + x * (-13 + 5 * x)) / (3 + 2 * x)

/-- The insertions of a list that are routed to lane `j`, in order, each as the pair of
its offset and its amplitude in lane `j`. -/
def laneEvents (j : Fin 4) (es : List (Flt × float_4)) : List (Flt × Flt) :=
  (es.filter fun e => decide (e.2 j ≠ Flt.fin 0)).map fun e => (e.1, e.2 j)

/-! ## The module `VCO` -/

/-- The parameters of the module (`enum ParamId`). -/
inductive ParamId where
  | COARSE_PARAM
  | FINE_PARAM
  | PULSEW_PARAM
  | FMLVL_PARAM
  | PWMCVLVL_PARAM
  deriving DecidableEq

/-- The inputs of the module (`enum InputId`). -/
inductive InputId where
  | PWMCV_INPUT
  | _1V_INPUT
  | FMCV_INPUT
  deriving DecidableEq

/-- The outputs of the module (`enum OutputId`). -/
inductive OutputId where
  | SAW_OUTPUT
  | PULSE_OUTPUT
  deriving DecidableEq

/-- An input port of the host, as far as the module reads it: the value of
`getChannels()` and the voltage of each channel. -/
structure Input where
  channels : Int
  voltages : Nat → Flt

/-- The SDK read `getPolyVoltageSimd<float_4>(c)`: the voltage of channel 0 in every lane
when the port is monophonic, the voltages of channels `c .. c + 3` otherwise. -/
def Input.getPolyVoltageSimd (p : Input) (c : Nat) : float_4 :=
  fun j => if p.channels = 1 then p.voltages 0 else p.voltages (c + j.val)

/-- An output port of the host, as far as the module writes it: whether it is connected,
the channel count last passed to `setChannels`, and the voltage of each channel. -/
structure Output where
  connected : Bool
  channels : Int
  voltages : Nat → Flt

/-- The SDK write `setVoltageSimd(v, c)`: lanes 0..3 of `v` to channels `c .. c + 3`. -/
def Output.setVoltageSimd (p : Output) (v : float_4) (c : Nat) : Output :=
  { p with voltages := fun k =>
      if h : c ≤ k ∧ k < c + 4 then v ⟨k - c, by omega⟩ else p.voltages k }

/-- The SDK write `setChannels(channels)`, recorded as the count passed. -/
def Output.setChannels (p : Output) (channels : Int) : Output :=
  { p with channels := channels }

/-- The part of `ProcessArgs` the module reads. -/
structure ProcessArgs where
  sampleRate : Flt
  sampleTime : Flt

/-- The SDK constant `dsp::FREQ_C4 = 261.6256f`. -/
def FREQ_C4 : Flt := Flt.fin (2616256 / 10000)

/-- The state of the module `VCO`: parameter values, ports and
`VoltageControlledOscillator<16, 16, float_4> oscillators[4]`. -/
structure VCO (σ : Type) where
  params : ParamId → Flt
  inputs : InputId → Input
  outputs : OutputId → Output
  oscillators : Fin 4 → VoltageControlledOscillator σ

namespace VCO

variable {σ : Type}

/-- The channel count of `VCO::process`:
`std::max(inputs[_1V_INPUT].getChannels(), 1)`. -/
def channelCount (inputs : InputId → Input) : Int :=
  max (inputs InputId._1V_INPUT).channels 1

/-- The values of `c` in `for (int c = 0; c < channels; c += 4)`, from `c` on. -/
def batchLoop (channels : Int) (c : Nat) : List Nat :=
  if (c : Int) < channels then c :: batchLoop channels (c + 4) else []
termination_by (channels - c).toNat
decreasing_by omega

/-- The local `pw` of `VCO::process` for the batch starting at channel `c`:
`pwParam + inputs[PWMCV_INPUT].getPolyVoltageSimd<float_4>(c) / 10.f * pwCvParam`. -/
def pulseWidthInput (params : ParamId → Flt) (inputs : InputId → Input) (c : Nat) : float_4 :=
  fun j => params ParamId.PULSEW_PARAM +
    (inputs InputId.PWMCV_INPUT).getPolyVoltageSimd c j / Flt.fin 10 *
      params ParamId.PWMCVLVL_PARAM

/-- The local `freq` of `VCO::process` for the batch starting at channel `c`; `exp2` is
the SDK function `dsp::exp2_taylor5`. -/
def freqInput (exp2 : Flt → Flt) (args : ProcessArgs) (params : ParamId → Flt)
    (inputs : InputId → Input) (c : Nat) : float_4 :=
  fun j =>
    let freqParam := params ParamId.COARSE_PARAM / Flt.fin 12
    let fineParam := params ParamId.FINE_PARAM / Flt.fin 12
    let fmParam := params ParamId.FMLVL_PARAM
    let pitch := freqParam + fineParam + (inputs InputId._1V_INPUT).getPolyVoltageSimd c j
    let pitch := pitch + (inputs InputId.FMCV_INPUT).getPolyVoltageSimd c j * fmParam
    let freq := FREQ_C4 * exp2 pitch
    Flt.clamp freq (Flt.fin 0) (args.sampleRate / Flt.fin 2)

/-- What one iteration of the loop of `VCO::process` does to its oscillator: set the
active-lane count and the analog flag, the frequency and the pulse width, then tick. -/
def batchOscillator (M : MinBlepGenerator σ) (exp2 : Flt → Flt) (args : ProcessArgs)
    (channels : Int) (params : ParamId → Flt) (inputs : InputId → Input) (c : Nat)
    (oscillator : VoltageControlledOscillator σ) : VoltageControlledOscillator σ :=
  let oscillator := { oscillator with channels := min (channels - c) 4, analog := true }
  let oscillator := { oscillator with freq := freqInput exp2 args params inputs c }
  let oscillator := oscillator.setPulseWidth (pulseWidthInput params inputs c)
  oscillator.process M args.sampleTime (fun _ => Flt.fin 0)

/-- One iteration of the loop of `VCO::process`, for the batch starting at channel `c`.
The array `oscillators` has 4 entries: an index `c / 4` outside it has no result. -/
def batch (M : MinBlepGenerator σ) (exp2 : Flt → Flt) (args : ProcessArgs) (channels : Int)
    (m : VCO σ) (c : Nat) : Option (VCO σ) :=
  if h : c / 4 < 4 then
    let oscillator :=
      batchOscillator M exp2 args channels m.params m.inputs c (m.oscillators ⟨c / 4, h⟩)
    let sawOut := m.outputs OutputId.SAW_OUTPUT
    let sawOut :=
      if sawOut.connected then
        sawOut.setVoltageSimd (fun j => Flt.fin 5 * oscillator.sawValue j) c
      else sawOut
    let pulseOut := m.outputs OutputId.PULSE_OUTPUT
    let pulseOut :=
      if pulseOut.connected then
        pulseOut.setVoltageSimd (fun j => Flt.fin 5 * oscillator.sqrValue j) c
      else pulseOut
    some { m with
      oscillators := Function.update m.oscillators ⟨c / 4, h⟩ oscillator
      outputs := fun id =>
        match id with
        | OutputId.SAW_OUTPUT => sawOut
        | OutputId.PULSE_OUTPUT => pulseOut }
  else none

/-- The method `VCO::process(args)`: one sample of the module. -/
def process (M : MinBlepGenerator σ) (exp2 : Flt → Flt) (args : ProcessArgs) (m : VCO σ) :
    Option (VCO σ) :=
  let channels := channelCount m.inputs
  ((batchLoop channels 0).foldlM (batch M exp2 args channels) m).map fun m =>
    { m with outputs := fun id => (m.outputs id).setChannels channels }

end VCO

/-- A module at rest whose ports all report `n` channels: all parameters and voltages 0,
outputs disconnected, oscillators as constructed. -/
def idleModule (n : Int) : VCO (List Call) where
  params := fun _ => Flt.fin 0
  inputs := fun _ => { channels := n, voltages := fun _ => Flt.fin 0 }
  outputs := fun _ => { connected := false, channels := 0, voltages := fun _ => Flt.fin 0 }
  oscillators := fun _ => VoltageControlledOscillator.init [] []

/-! ## The scalar voice of the specification -/

/-- The single-voice oscillator of the specification ("independent scalar state machines
replicated N times"): one voice's phase, frequency, pulse width and ramp mode, on exact
numbers. -/
structure ScalarVoice where
  phase : ℚ
  freq : ℚ
  pulseWidth : ℚ
  analog : Bool

namespace ScalarVoice

/-- The step of the specification: `clamp(frequency * deltaTime, 0, 0.35)`. -/
def deltaPhase (v : ScalarVoice) (deltaTime : ℚ) : ℚ :=
  min (max (v.freq * deltaTime) 0) (7 / 20)

/-- The advanced phase of the specification: `wrap(phase + deltaPhase)`. -/
def advance (v : ScalarVoice) (deltaTime : ℚ) : ℚ :=
  wrap (v.phase + v.deltaPhase deltaTime)

/-- The events of the specification for a threshold `T`: none on a zero step; otherwise
the fraction `(T - (phase - deltaPhase)) / deltaPhase` of the advanced phase, and when it
is in `(0, 1]` one event with offset `fraction - 1` and amplitude `-2`. -/
def events (v : ScalarVoice) (deltaTime : ℚ) (T : ℚ) : List (ℚ × ℚ) :=
  if v.deltaPhase deltaTime = 0 then []
  else
    let c := (T - (v.advance deltaTime - v.deltaPhase deltaTime)) / v.deltaPhase deltaTime
    if 0 < c ∧ c ≤ 1 then [(c - 1, -2)] else []

/-- The square of the specification: `+1` if `phase < pulseWidth`, else `-1`. -/
def sqr (v : ScalarVoice) (phase : ℚ) : ℚ :=
  if phase < v.pulseWidth then 1 else -1

/-- The naive saw of the specification at `x = wrap(phase + 0.5)`: `2x - 1`, or
`-shape(x)` in analog mode. -/
def saw (v : ScalarVoice) (phase : ℚ) : ℚ :=
  if v.analog then -shape (wrap (phase + 1 / 2)) else 2 * wrap (phase + 1 / 2) - 1

end ScalarVoice

/-- A list of scalar events as lane values. -/
def asLaneEvents (es : List (ℚ × ℚ)) : List (Flt × Flt) :=
  es.map fun e => (Flt.fin e.1, Flt.fin e.2)

/-! ## Binary32 arithmetic

The definitions above compute on exact numbers.  The source computes in IEEE binary32:
every `+`, `-`, `*`, `/` returns the exact result rounded to the nearest binary32 number,
ties to even.  The definitions of this section add that rounding; the oscillator is
embedded a second time over them in `Binary32`. -/

namespace Flt

/-- The integer nearest to `t`, ties to the even one. -/
def roundEven (t : ℚ) : ℤ :=
  let m := ⌊t⌋
  let r := t - m
  if r < 1 / 2 then m else if 1 / 2 < r then m + 1 else if m % 2 = 0 then m else m + 1

/-- The power `2 ^ k` for an integer exponent `k`. -/
def twoPow (k : ℤ) : ℚ :=
  if 0 ≤ k then (2 : ℚ) ^ k.toNat else 1 / (2 : ℚ) ^ (-k).toNat

/-- The binary logarithm of a natural number, rounded down, by halving. -/
def log2Fuel : Nat → Nat → Nat
  | 0, _ => 0
  | fuel + 1, n => if n < 2 then 0 else log2Fuel fuel (n / 2) + 1

/-- The exponent `e` of a positive rational `a`: `2 ^ e ≤ a < 2 ^ (e + 1)`. -/
def ilog2 (a : ℚ) : ℤ :=
  let e : ℤ := (log2Fuel a.num.natAbs a.num.natAbs : ℤ) - (log2Fuel a.den a.den : ℤ)
  if a < twoPow e then e - 1 else e

/-- The binary32 number nearest to `q`, ties to even: 24 significant bits, and below the
normal range the fixed spacing `2 ^ (-149)` of the subnormal numbers (gradual underflow;
a flush-to-zero mode of the host is not modelled).  The exponent is not bounded above
here; `round32` turns an overflow into an infinity. -/
def r32 (q : ℚ) : ℚ :=
  if q = 0 then 0
  else
    let a := |q|
    let k := max (ilog2 a - 23) (-149)
    let m := roundEven (a / twoPow k)
    if q < 0 then -(m * twoPow k) else m * twoPow k

/-- The exact result of an operation as a binary32 value: rounded to nearest, and an
infinity when the rounded magnitude reaches `2 ^ 128`. -/
def round32 : Flt → Flt
  | fin q =>
    if (2 : ℚ) ^ 128 ≤ r32 q then pinf
    else if r32 q ≤ -(2 : ℚ) ^ 128 then ninf
    else fin (r32 q)
  | x => x

/-- The binary32 sum. -/
def add32 (a b : Flt) : Flt := round32 (a + b)

/-- The binary32 difference. -/
def sub32 (a b : Flt) : Flt := round32 (a - b)

/-- The binary32 product. -/
def mul32 (a b : Flt) : Flt := round32 (a * b)

/-- The binary32 quotient. -/
def div32 (a b : Flt) : Flt := round32 (a / b)

end Flt

/-! ## The oscillator in binary32 -/

namespace Binary32

variable {σ : Type}

/-- The curve `expCurve(x) = (3 + x * (-13 + 5 * x)) / (3 + 2 * x)`, each operation
rounded. -/
def expCurve (x : Flt) : Flt :=
  Flt.div32
    (Flt.add32 (Flt.fin 3) (Flt.mul32 x (Flt.add32 (Flt.fin (-13)) (Flt.mul32 (Flt.fin 5) x))))
    (Flt.add32 (Flt.fin 3) (Flt.mul32 (Flt.fin 2) x))

/-- The local `deltaPhase = simd::clamp(freq * deltaTime, 0.f, 0.35f)` of `process`. -/
def deltaPhase (o : VoltageControlledOscillator σ) (deltaTime : Flt) : float_4 :=
  fun i => Flt.clamp (Flt.mul32 (o.freq i) deltaTime) (Flt.fin 0) (Flt.round32 (Flt.fin (7 / 20)))

/-- The member `phase` after `phase += deltaPhase; phase -= simd::floor(phase);`. -/
def advance (o : VoltageControlledOscillator σ) (deltaTime : Flt) : float_4 :=
  fun i =>
    let phase := Flt.add32 (o.phase i) (deltaPhase o deltaTime i)
    Flt.sub32 phase (Flt.floor phase)

/-- The subexpression `phase - deltaPhase` of the crossing formulas, with `phase` the
already advanced member. -/
def prePhase (o : VoltageControlledOscillator σ) (deltaTime : Flt) : float_4 :=
  fun i => Flt.sub32 (advance o deltaTime i) (deltaPhase o deltaTime i)

/-- The crossing fraction `(T - (phase - deltaPhase)) / deltaPhase` for a threshold
vector `T`. -/
def crossing (o : VoltageControlledOscillator σ) (deltaTime : Flt) (T : float_4) : float_4 :=
  fun i => Flt.div32 (Flt.sub32 (T i) (prePhase o deltaTime i)) (deltaPhase o deltaTime i)

/-- The local `pulseCrossing` of `process`. -/
def pulseCrossing (o : VoltageControlledOscillator σ) (deltaTime : Flt) : float_4 :=
  crossing o deltaTime o.pulseWidth

/-- The local `halfCrossing` of `process`. -/
def halfCrossing (o : VoltageControlledOscillator σ) (deltaTime : Flt) : float_4 :=
  crossing o deltaTime (fun _ => Flt.fin (1 / 2))

/-- The insertion loops of `process`, as the list of argument pairs in call order:
`if (m) for (i = 0; i < channels; i++) if (m & (1 << i))
blep.insertDiscontinuity(c[i] - 1.f, movemaskInverse(1 << i) & (-2.f));`. -/
def insertions (channels : Int) (m : Nat) (c : float_4) : List (Flt × float_4) :=
  if m ≠ 0 then
    (List.range channels.toNat).filterMap fun i =>
      if m &&& (1 <<< i) ≠ 0 then
        some (Flt.sub32 (laneAt c i) (Flt.fin 1),
          maskAnd (movemaskInverse (1 <<< i)) (Flt.fin (-2)))
      else none
  else []

/-- The discontinuities `process` inserts into `sqrMinBlep` in one call. -/
def pulseInsertions (o : VoltageControlledOscillator σ) (deltaTime : Flt) :
    List (Flt × float_4) :=
  insertions o.channels (VoltageControlledOscillator.crossingMask (pulseCrossing o deltaTime))
    (pulseCrossing o deltaTime)

/-- The discontinuities `process` inserts into `sawMinBlep` in one call. -/
def halfInsertions (o : VoltageControlledOscillator σ) (deltaTime : Flt) :
    List (Flt × float_4) :=
  insertions o.channels (VoltageControlledOscillator.crossingMask (halfCrossing o deltaTime))
    (halfCrossing o deltaTime)

/-- The method `saw(phase)`. -/
def saw (o : VoltageControlledOscillator σ) (phase : float_4) : float_4 :=
  fun i =>
    let x := Flt.add32 (phase i) (Flt.fin (1 / 2))
    let x := Flt.sub32 x (Flt.trunc x)
    if o.analog then -expCurve x else Flt.sub32 (Flt.mul32 (Flt.fin 2) x) (Flt.fin 1)

/-- The method `process(deltaTime, syncValue)`: one sample tick. -/
def process (M : MinBlepGenerator σ) (deltaTime : Flt) (_syncValue : float_4)
    (o : VoltageControlledOscillator σ) : VoltageControlledOscillator σ :=
  -- Advance phase
  let phase := advance o deltaTime
  -- Jump sqr when crossing `pulseWidth`
  let sqrMinBlep := (pulseInsertions o deltaTime).foldl
    (fun s e => M.insertDiscontinuity e.1 e.2 s) o.sqrMinBlep
  -- Jump saw when crossing 0.5
  let sawMinBlep := (halfInsertions o deltaTime).foldl
    (fun s e => M.insertDiscontinuity e.1 e.2 s) o.sawMinBlep
  -- Square
  let sqrOut := M.process sqrMinBlep
  -- Saw
  let sawOut := M.process sawMinBlep
  { o with
    phase := phase
    sqrMinBlep := sqrOut.2
    sawMinBlep := sawOut.2
    sqrValue := fun i => Flt.add32 (o.sqr phase i) (sqrOut.1 i)
    sawValue := fun i => Flt.add32 (saw o phase i) (sawOut.1 i) }

/-- The sample time the host passes at a sample rate: `1.f / sampleRate`. -/
def sampleTime (sampleRate : ℚ) : Flt := Flt.div32 (Flt.fin 1) (Flt.fin sampleRate)

/-- An oscillator as constructed, with lane 0 active and the given frequency and pulse
width in every lane. -/
def start (freq pulseWidth : Flt) : VoltageControlledOscillator (List Call) :=
  { VoltageControlledOscillator.init [] [] with
    channels := 1
    freq := fun _ => freq
    pulseWidth := fun _ => pulseWidth }

/-- The oscillator `start freq pulseWidth` after `k` calls of `process` with recording
correctors, at the given sample rate. -/
def run (freq pulseWidth : Flt) (sampleRate : ℚ) (k : Nat) :
    VoltageControlledOscillator (List Call) :=
  (process (recorder fun _ => Flt.fin 0) (sampleTime sampleRate) (fun _ => Flt.fin 0))^[k]
    (start freq pulseWidth)

end Binary32

/-! ## Lemmas on lane values -/

namespace Flt

@[simp] theorem fin_add_fin (a b : ℚ) : (fin a + fin b : Flt) = fin (a + b) := rfl

@[simp] theorem fin_sub_fin (a b : ℚ) : (fin a - fin b : Flt) = fin (a - b) := by
  show add (fin a) (neg (fin b)) = _
  simp [add, neg, sub_eq_add_neg]

@[simp] theorem fin_mul_fin (a b : ℚ) : (fin a * fin b : Flt) = fin (a * b) := rfl

theorem fin_div_fin (a b : ℚ) :
    (fin a / fin b : Flt) = if b = 0 then infTimes a else fin (a / b) := rfl

@[simp] theorem floor_fin (a : ℚ) : floor (fin a) = fin (⌊a⌋ : ℤ) := rfl

@[simp] theorem lt_fin_fin (a b : ℚ) : lt (fin a) (fin b) = decide (a < b) := rfl

@[simp] theorem le_fin_fin (a b : ℚ) : le (fin a) (fin b) = decide (a ≤ b) := rfl

/-- The step clamp always yields a finite value in `[0, 7/20]`, also on special values. -/
theorem clamp_step (x : Flt) :
    ∃ d : ℚ, clamp x (fin 0) (fin (7 / 20)) = fin d ∧ 0 ≤ d ∧ d ≤ 7 / 20 := by
  cases x with
  | fin q =>
    simp only [clamp, fmax, fmin, lt_fin_fin]
    by_cases h1 : (0:ℚ) < q
    · by_cases h2 : q < 7/20
      · exact ⟨q, by simp [h1, h2], le_of_lt h1, le_of_lt h2⟩
      · exact ⟨7/20, by simp [h1, h2], by norm_num, le_refl _⟩
    · exact ⟨0, by simp [h1], le_refl _, by norm_num⟩
  | pinf => exact ⟨7/20, by simp [clamp, fmax, fmin, lt], by norm_num, le_refl _⟩
  | ninf => exact ⟨0, by simp [clamp, fmax, fmin, lt], le_refl _, by norm_num⟩
  | nan => exact ⟨0, by simp [clamp, fmax, fmin, lt], le_refl _, by norm_num⟩

/-- On finite values with `a ≤ b` the clamp is the usual one. -/
theorem clamp_fin (x a b : ℚ) (hab : a ≤ b) :
    clamp (fin x) (fin a) (fin b) = fin (min (max x a) b) := by
  simp only [clamp, fmax, fmin, lt_fin_fin]
  by_cases h1 : a < x
  · by_cases h2 : x < b
    · simp [h1, h2, le_of_lt h1, le_of_lt h2]
    · have h3 : b ≤ x := not_lt.mp h2
      simp [h1, h2, le_of_lt h1, h3]
  · have h3 : x ≤ a := not_lt.mp h1
    rcases lt_or_eq_of_le hab with h4 | h4
    · simp [h1, h3, h4, le_of_lt h4]
    · subst h4; simp [h1, h3]

end Flt

/-! ## Lemmas on lane masks -/

theorem and_shiftLeft_ne_zero (m i : Nat) : m &&& (1 <<< i) ≠ 0 ↔ m.testBit i = true := by
  rw [Nat.one_shiftLeft]
  constructor
  · intro h
    by_contra hb
    apply h
    apply Nat.eq_of_testBit_eq
    intro j
    rw [Nat.testBit_and, Nat.testBit_two_pow, Nat.zero_testBit]
    by_cases hij : i = j
    · subst hij; simp [hb]
    · simp [hij]
  · intro hb h
    have := congrArg (fun x => x.testBit i) h
    simp [Nat.testBit_two_pow_self, hb] at this

theorem movemask_lt (b : Fin 4 → Bool) : movemask b < 2 ^ 4 := by
  unfold movemask
  split_ifs <;> decide

theorem testBit_movemask (b : Fin 4 → Bool) (i : Nat) :
    (movemask b).testBit i = true ↔ ∃ h : i < 4, b ⟨i, h⟩ = true := by
  by_cases hi : i < 4
  · have key : (movemask b).testBit i = b ⟨i, hi⟩ := by
      unfold movemask
      interval_cases i <;>
        cases h0 : b 0 <;> cases h1 : b 1 <;> cases h2 : b 2 <;> cases h3 : b 3 <;>
        simp_all <;> decide
    rw [key]
    exact ⟨fun h => ⟨hi, h⟩, fun ⟨_, h⟩ => h⟩
  · constructor
    · intro h
      have hlt : movemask b < 2 ^ i :=
        lt_of_lt_of_le (movemask_lt b) (Nat.pow_le_pow_right (by decide) (not_lt.mp hi))
      rw [Nat.testBit_lt_two_pow hlt] at h
      exact absurd h (by simp)
    · rintro ⟨h, _⟩
      exact absurd h hi

theorem maskAnd_movemaskInverse (i : Nat) (v : Flt) (j : Fin 4) :
    maskAnd (movemaskInverse (1 <<< i)) v j = if i = j.val then v else Flt.fin 0 := by
  simp [maskAnd, movemaskInverse, Nat.one_shiftLeft, Nat.testBit_two_pow]

/-! ## Lemmas on the phase step and the crossing test -/

namespace VoltageControlledOscillator

variable {σ : Type}

/-- The applied step is finite and in `[0, 7/20]` whatever the frequency and the time. -/
theorem deltaPhase_fin (o : VoltageControlledOscillator σ) (deltaTime : Flt) (i : Fin 4) :
    ∃ d : ℚ, o.deltaPhase deltaTime i = Flt.fin d ∧ 0 ≤ d ∧ d ≤ 7 / 20 :=
  Flt.clamp_step _

theorem advance_fin (o : VoltageControlledOscillator σ) (deltaTime : Flt) (i : Fin 4)
    (p d : ℚ) (hp : o.phase i = Flt.fin p) (hd : o.deltaPhase deltaTime i = Flt.fin d) :
    o.advance deltaTime i = Flt.fin (p + d - (⌊p + d⌋ : ℤ)) := by
  simp [advance, hp, hd]

theorem process_phase (M : MinBlepGenerator σ) (deltaTime : Flt) (sv : float_4)
    (o : VoltageControlledOscillator σ) : (process M deltaTime sv o).phase = o.advance deltaTime :=
  rfl

theorem crossing_fin (o : VoltageControlledOscillator σ) (deltaTime : Flt) (T : float_4)
    (i : Fin 4) (p d w : ℚ) (hp : o.phase i = Flt.fin p)
    (hd : o.deltaPhase deltaTime i = Flt.fin d) (hw : T i = Flt.fin w) :
    o.crossing deltaTime T i = Flt.fin (w - (p + d - (⌊p + d⌋ : ℤ) - d)) / Flt.fin d := by
  simp [crossing, advance_fin o deltaTime i p d hp hd, hd, hw]

/-- The crossing test passes only on a finite fraction in `(0, 1]`. -/
theorem crossed_iff (c : Flt) : crossed c = true ↔ ∃ q : ℚ, c = Flt.fin q ∧ 0 < q ∧ q ≤ 1 := by
  cases c with
  | fin q => simp [crossed]
  | pinf => simp [crossed, Flt.lt, Flt.le]
  | ninf => simp [crossed, Flt.lt, Flt.le]
  | nan => simp [crossed, Flt.lt, Flt.le]

/-- On a quotient of finite values the test passes exactly when the step is positive and
the numerator is in `(0, d]`, given a non-negative step. -/
theorem crossed_div (a d : ℚ) (hd : 0 ≤ d) :
    crossed (Flt.fin a / Flt.fin d) = true ↔ 0 < d ∧ 0 < a ∧ a ≤ d := by
  rw [Flt.fin_div_fin]
  by_cases h0 : d = 0
  · subst h0
    simp only [if_true, lt_irrefl, false_and, iff_false]
    unfold Flt.infTimes
    split_ifs <;> simp [crossed, Flt.lt, Flt.le]
  · have hpos : 0 < d := lt_of_le_of_ne hd (Ne.symm h0)
    simp only [h0, if_false, crossed, Flt.lt_fin_fin, Flt.le_fin_fin, Bool.and_eq_true,
      decide_eq_true_eq, hpos, true_and]
    rw [div_pos_iff_of_pos_right hpos, div_le_one hpos]

/-- The floor of the advanced phase: 0 without wrap, 1 with. -/
theorem floor_step (p d : ℚ) (hp0 : 0 ≤ p) (hp1 : p < 1) (hd0 : 0 ≤ d) (hd1 : d ≤ 7 / 20) :
    (p + d < 1 ∧ (⌊p + d⌋ : ℤ) = 0) ∨ (1 ≤ p + d ∧ (⌊p + d⌋ : ℤ) = 1) := by
  by_cases h : p + d < 1
  · left
    refine ⟨h, ?_⟩
    rw [Int.floor_eq_iff]
    constructor <;> norm_num <;> linarith
  · right
    refine ⟨not_lt.mp h, ?_⟩
    rw [Int.floor_eq_iff]
    constructor <;> norm_num <;> linarith

/-- What the detector of `process` decides on a lane with phase `p` in `[0, 1)`, applied
step `d` and threshold `w`: without wrap it fires when `p < w ≤ p + d`, with wrap when
`p < w + 1 ≤ p + d`. -/
theorem crossed_crossing (o : VoltageControlledOscillator σ) (deltaTime : Flt) (T : float_4)
    (i : Fin 4) (p d w : ℚ) (hp : o.phase i = Flt.fin p)
    (hd : o.deltaPhase deltaTime i = Flt.fin d) (hw : T i = Flt.fin w)
    (hp0 : 0 ≤ p) (hp1 : p < 1) :
    crossed (o.crossing deltaTime T i) = true ↔
      0 < d ∧ ((p + d < 1 ∧ p < w ∧ w ≤ p + d) ∨ (1 ≤ p + d ∧ p < w + 1 ∧ w + 1 ≤ p + d)) := by
  obtain ⟨d', hd', hd0, hd1⟩ := o.deltaPhase_fin deltaTime i
  rw [hd] at hd'
  cases hd'
  rw [crossing_fin o deltaTime T i p d w hp hd hw, crossed_div _ _ hd0]
  rcases floor_step p d hp0 hp1 hd0 hd1 with ⟨h1, h2⟩ | ⟨h1, h2⟩
  · rw [h2]
    constructor
    · rintro ⟨a, b, c⟩
      refine ⟨a, Or.inl ⟨h1, ?_, ?_⟩⟩ <;> push_cast at * <;> linarith
    · rintro ⟨a, ⟨_, b, c⟩ | ⟨b, _, _⟩⟩
      · refine ⟨a, ?_, ?_⟩ <;> push_cast <;> linarith
      · linarith
  · rw [h2]
    constructor
    · rintro ⟨a, b, c⟩
      refine ⟨a, Or.inr ⟨h1, ?_, ?_⟩⟩ <;> push_cast at * <;> linarith
    · rintro ⟨a, ⟨b, _, _⟩ | ⟨_, b, c⟩⟩
      · linarith
      · refine ⟨a, ?_, ?_⟩ <;> push_cast <;> linarith

end VoltageControlledOscillator

/-! ## Lemmas on the insertion loop -/

namespace VoltageControlledOscillator

variable {σ : Type}

/-- The body of the insertion loop at index `i`. -/
theorem loop_body (c : float_4) (i : Nat) :
    (if crossingMask c &&& (1 <<< i) ≠ 0 then
        some (laneAt c i - Flt.fin 1, maskAnd (movemaskInverse (1 <<< i)) (Flt.fin (-2)))
      else none) =
    if i < 4 ∧ crossed (laneAt c i) = true then
      some (laneAt c i - Flt.fin 1, fun j : Fin 4 => if i = j.val then Flt.fin (-2) else Flt.fin 0)
    else none := by
  have hbit : crossingMask c &&& (1 <<< i) ≠ 0 ↔ (i < 4 ∧ crossed (laneAt c i) = true) := by
    rw [and_shiftLeft_ne_zero, crossingMask, testBit_movemask]
    constructor
    · rintro ⟨h, hc⟩
      exact ⟨h, by simpa [laneAt, h] using hc⟩
    · rintro ⟨h, hc⟩
      exact ⟨h, by simpa [laneAt, h] using hc⟩
  by_cases h : i < 4 ∧ crossed (laneAt c i) = true
  · rw [if_pos (hbit.mpr h), if_pos h]
    congr 2
    funext j
    exact maskAnd_movemaskInverse i _ j
  · rw [if_neg (fun hh => h (hbit.mp hh)), if_neg h]

/-- The outer test `if (mask)` does not change what the loop inserts. -/
theorem insertions_eq (channels : Int) (c : float_4) :
    insertions channels (crossingMask c) c =
      (List.range channels.toNat).filterMap fun i =>
        if i < 4 ∧ crossed (laneAt c i) = true then
          some (laneAt c i - Flt.fin 1,
            fun j : Fin 4 => if i = j.val then Flt.fin (-2) else Flt.fin 0)
        else none := by
  unfold insertions
  by_cases hm : crossingMask c ≠ 0
  · rw [if_pos hm]
    congr 1
    funext i
    exact loop_body c i
  · rw [if_neg hm]
    have hm0 : crossingMask c = 0 := not_not.mp hm
    symm
    rw [List.filterMap_eq_nil_iff]
    intro i _
    rw [← loop_body c i, hm0]
    simp

/-- Membership in the insertions of one loop: one event per active lane that crossed. -/
theorem mem_insertions (channels : Int) (c : float_4) (e : Flt × float_4) :
    e ∈ insertions channels (crossingMask c) c ↔
      ∃ i : Fin 4, (i.val : Int) < channels ∧ crossed (c i) = true ∧
        e = (c i - Flt.fin 1, fun j : Fin 4 => if i = j then Flt.fin (-2) else Flt.fin 0) := by
  rw [insertions_eq, List.mem_filterMap]
  constructor
  · rintro ⟨i, hi, he⟩
    rw [List.mem_range] at hi
    split_ifs at he with h
    obtain ⟨h4, hc⟩ := h
    refine ⟨⟨i, h4⟩, by simp only; omega, by simpa [laneAt, h4] using hc, ?_⟩
    cases he
    simp [laneAt, h4, Fin.ext_iff]
  · rintro ⟨i, hi, hc, he⟩
    refine ⟨i.val, List.mem_range.mpr (by omega), ?_⟩
    have h : i.val < 4 ∧ crossed (laneAt c i.val) = true := ⟨i.isLt, by simpa [laneAt] using hc⟩
    rw [if_pos h, he]
    simp [laneAt, Fin.ext_iff]

/-- The count of events of lane `j` among the first `n` loop iterations. -/
theorem laneCount_range (c : float_4) (j : Fin 4) (n : Nat) :
    laneCount j ((List.range n).filterMap fun i =>
        if i < 4 ∧ crossed (laneAt c i) = true then
          some (laneAt c i - Flt.fin 1,
            fun j : Fin 4 => if i = j.val then Flt.fin (-2) else Flt.fin 0)
        else none) =
      if j.val < n ∧ crossed (c j) = true then 1 else 0 := by
  induction n with
  | zero => simp [laneCount]
  | succ n ih =>
    rw [List.range_succ, List.filterMap_append]
    unfold laneCount at ih ⊢
    rw [List.countP_append, ih]
    by_cases hn : n = j.val
    · subst hn
      have h4 : j.val < 4 := j.isLt
      by_cases hc : crossed (c j) = true
      · have h : j.val < 4 ∧ crossed (laneAt c j.val) = true := ⟨h4, by simpa [laneAt] using hc⟩
        simp [h, hc, laneAt]
      · have h : ¬ (j.val < 4 ∧ crossed (laneAt c j.val) = true) := by
          rintro ⟨_, h⟩
          exact hc (by simpa [laneAt] using h)
        rw [List.filterMap_cons, if_neg h]
        simp [hc]
    · have hlt : (j.val < n + 1 ∧ crossed (c j) = true) ↔ (j.val < n ∧ crossed (c j) = true) := by
        constructor
        · rintro ⟨a, b⟩
          exact ⟨by omega, b⟩
        · rintro ⟨a, b⟩
          exact ⟨by omega, b⟩
      simp only [hlt]
      by_cases h : n < 4 ∧ crossed (laneAt c n) = true
      · simp [h, hn]
      · simp [h]

/-- One loop inserts one event for lane `j` when the lane is active and crossed, none
otherwise. -/
theorem laneCount_insertions (channels : Int) (c : float_4) (j : Fin 4) :
    laneCount j (insertions channels (crossingMask c) c) =
      if (j.val : Int) < channels ∧ crossed (c j) = true then 1 else 0 := by
  rw [insertions_eq, laneCount_range]
  have : j.val < channels.toNat ↔ (j.val : Int) < channels := by omega
  simp only [this]

/-- A recorder fed a list of insertions appends them to its trace. -/
theorem foldl_recorder (r : float_4) (es : List (Flt × float_4)) (t : List Call) :
    es.foldl (fun s e => (recorder r).insertDiscontinuity e.1 e.2 s) t = t ++ asCalls es := by
  induction es generalizing t with
  | nil => simp [asCalls]
  | cons e es ih =>
    rw [List.foldl_cons, ih]
    simp [asCalls, recorder]

theorem insertsFor_append (j : Fin 4) (s t : List Call) :
    insertsFor j (s ++ t) = insertsFor j s + insertsFor j t := by
  simp [insertsFor, List.countP_append]

theorem insertsFor_asCalls (j : Fin 4) (es : List (Flt × float_4)) :
    insertsFor j (asCalls es) = laneCount j es := by
  induction es with
  | nil => rfl
  | cons e es ih =>
    simp only [asCalls, insertsFor, laneCount, List.map_cons, List.countP_cons] at ih ⊢
    rw [ih]

theorem insertsFor_process (j : Fin 4) : insertsFor j [Call.process] = 0 := by
  simp [insertsFor]

/-- The calls the square corrector receives in one tick: the insertions, then one
`process()`. -/
theorem process_sqr_trace (r : float_4) (deltaTime : Flt) (sv : float_4)
    (o : VoltageControlledOscillator (List Call)) :
    (process (recorder r) deltaTime sv o).sqrMinBlep =
      o.sqrMinBlep ++ asCalls (o.pulseInsertions deltaTime) ++ [Call.process] := by
  simp only [process, foldl_recorder]
  rfl

/-- The calls the saw corrector receives in one tick. -/
theorem process_saw_trace (r : float_4) (deltaTime : Flt) (sv : float_4)
    (o : VoltageControlledOscillator (List Call)) :
    (process (recorder r) deltaTime sv o).sawMinBlep =
      o.sawMinBlep ++ asCalls (o.halfInsertions deltaTime) ++ [Call.process] := by
  simp only [process, foldl_recorder]
  rfl

end VoltageControlledOscillator

/-! ## Counting the insertions of one tick -/

namespace VoltageControlledOscillator

variable {σ : Type}

/-- The insertions of one detector for a lane with phase `p` in `[0, 1)`, applied step
`d` and threshold `w`. -/
theorem laneCount_crossing (o : VoltageControlledOscillator σ) (deltaTime : Flt)
    (T : float_4) (i : Fin 4) (p d w : ℚ) (hp : o.phase i = Flt.fin p)
    (hd : o.deltaPhase deltaTime i = Flt.fin d) (hw : T i = Flt.fin w)
    (hp0 : 0 ≤ p) (hp1 : p < 1) :
    laneCount i (insertions o.channels (crossingMask (o.crossing deltaTime T))
        (o.crossing deltaTime T)) =
      if (i.val : Int) < o.channels ∧ 0 < d ∧
          ((p + d < 1 ∧ p < w ∧ w ≤ p + d) ∨ (1 ≤ p + d ∧ p < w + 1 ∧ w + 1 ≤ p + d))
      then 1 else 0 := by
  rw [laneCount_insertions]
  simp only [crossed_crossing o deltaTime T i p d w hp hd hw hp0 hp1]

/-- The square insertions a recorded tick adds for lane `i`. -/
theorem sqr_inserts (r : float_4) (deltaTime : Flt) (sv : float_4)
    (o : VoltageControlledOscillator (List Call)) (i : Fin 4) :
    insertsFor i (process (recorder r) deltaTime sv o).sqrMinBlep =
      insertsFor i o.sqrMinBlep + laneCount i (o.pulseInsertions deltaTime) := by
  rw [process_sqr_trace, insertsFor_append, insertsFor_append, insertsFor_asCalls,
    insertsFor_process, Nat.add_zero]

/-- The saw insertions a recorded tick adds for lane `i`. -/
theorem saw_inserts (r : float_4) (deltaTime : Flt) (sv : float_4)
    (o : VoltageControlledOscillator (List Call)) (i : Fin 4) :
    insertsFor i (process (recorder r) deltaTime sv o).sawMinBlep =
      insertsFor i o.sawMinBlep + laneCount i (o.halfInsertions deltaTime) := by
  rw [process_saw_trace, insertsFor_append, insertsFor_append, insertsFor_asCalls,
    insertsFor_process, Nat.add_zero]

/-- A zero step never passes the crossing test, whatever the threshold and the phase. -/
theorem crossed_zero_step (o : VoltageControlledOscillator σ) (deltaTime : Flt)
    (T : float_4) (i : Fin 4) (hd : o.deltaPhase deltaTime i = Flt.fin 0) :
    crossed (o.crossing deltaTime T i) = false := by
  have key : ∀ x : Flt, crossed (x / Flt.fin 0) = false := by
    intro x
    cases x with
    | fin a =>
      rw [Flt.fin_div_fin, if_pos rfl]
      unfold Flt.infTimes
      split_ifs <;> simp [crossed, Flt.lt, Flt.le]
    | pinf =>
      show crossed (Flt.div Flt.pinf (Flt.fin 0)) = false
      simp [Flt.div, crossed, Flt.lt, Flt.le]
    | ninf =>
      show crossed (Flt.div Flt.ninf (Flt.fin 0)) = false
      simp [Flt.div, crossed, Flt.lt, Flt.le]
    | nan =>
      show crossed (Flt.div Flt.nan (Flt.fin 0)) = false
      simp [Flt.div, crossed, Flt.lt, Flt.le]
  unfold crossing
  rw [hd]
  exact key _

/-- The applied step of a lane with finite frequency and time. -/
theorem deltaPhase_eq (o : VoltageControlledOscillator σ) (i : Fin 4) (f t : ℚ)
    (hf : o.freq i = Flt.fin f) :
    o.deltaPhase (Flt.fin t) i = Flt.fin (min (max (f * t) 0) (7 / 20)) := by
  unfold deltaPhase
  rw [hf, Flt.fin_mul_fin, Flt.clamp_fin _ _ _ (by norm_num)]

/-- A tick writes neither the frequency, the pulse width nor the lane count. -/
theorem iterate_frame (M : MinBlepGenerator σ) (deltaTime : Flt) (sv : float_4)
    (o : VoltageControlledOscillator σ) (k : Nat) :
    ((process M deltaTime sv)^[k] o).freq = o.freq ∧
    ((process M deltaTime sv)^[k] o).pulseWidth = o.pulseWidth ∧
    ((process M deltaTime sv)^[k] o).channels = o.channels := by
  induction k with
  | zero => exact ⟨rfl, rfl, rfl⟩
  | succ k ih =>
    rw [Function.iterate_succ_apply']
    exact ih

end VoltageControlledOscillator

/-! ## The phase integrator -/

open VoltageControlledOscillator

/-- C1: whatever the frequency and the elapsed time of the call (in particular for
`0 ≤ f ≤ sampleRate/2` and `deltaTime ≥ 0`), a lane whose phase is a finite number before
`process` holds a phase in `[0, 1)` after it.  The phase starts at 0, so it is in `[0, 1)`
after every call. -/
theorem C1_phase_in_unit_interval {σ : Type} (M : MinBlepGenerator σ) (deltaTime : Flt)
    (syncValue : float_4) (o : VoltageControlledOscillator σ) (i : Fin 4) (p : ℚ)
    (hp : o.phase i = Flt.fin p) :
    ∃ q : ℚ, (process M deltaTime syncValue o).phase i = Flt.fin q ∧ 0 ≤ q ∧ q < 1 := by
  obtain ⟨d, hd, _, _⟩ := o.deltaPhase_fin deltaTime i
  refine ⟨p + d - (⌊p + d⌋ : ℤ), ?_, ?_, ?_⟩
  · rw [process_phase, advance_fin o deltaTime i p d hp hd]
  · exact Int.fract_nonneg (p + d)
  · exact Int.fract_lt_one (p + d)

/-- C1 at the initial oscillator, 100 Hz at 44100 Hz. -/
theorem C1_phase_in_unit_interval_witness :
    ∃ q : ℚ, (process (recorder fun _ => Flt.fin 0) (Flt.fin (1 / 44100)) (fun _ => Flt.fin 0)
      { init [] [] with freq := fun _ => Flt.fin 100 }).phase 0 = Flt.fin q ∧ 0 ≤ q ∧ q < 1 :=
  C1_phase_in_unit_interval _ _ _ _ 0 0 rfl

/-- C2: the step `process` applies is finite and in `[0, 0.35]` whatever the inputs, and
the new phase is the old phase plus that step, minus its floor; on finite phase,
frequency and time the step is `clamp(freq * deltaTime, 0, 0.35)` and the new phase is
`wrap(oldPhase + step)` with `wrap(x) = x - floor(x)`. -/
theorem C2_step_clamped_and_wrapped {σ : Type} (M : MinBlepGenerator σ) (deltaTime : Flt)
    (syncValue : float_4) (o : VoltageControlledOscillator σ) (i : Fin 4) :
    (∃ d : ℚ, o.deltaPhase deltaTime i = Flt.fin d ∧ 0 ≤ d ∧ d ≤ 7 / 20 ∧
      (process M deltaTime syncValue o).phase i =
        (o.phase i + Flt.fin d) - Flt.floor (o.phase i + Flt.fin d)) ∧
    (∀ p f t : ℚ, o.phase i = Flt.fin p → o.freq i = Flt.fin f → deltaTime = Flt.fin t →
      o.deltaPhase deltaTime i = Flt.fin (min (max (f * t) 0) (7 / 20)) ∧
      (process M deltaTime syncValue o).phase i =
        Flt.fin (wrap (p + min (max (f * t) 0) (7 / 20)))) := by
  constructor
  · obtain ⟨d, hd, h0, h1⟩ := o.deltaPhase_fin deltaTime i
    refine ⟨d, hd, h0, h1, ?_⟩
    rw [process_phase]
    simp only [advance, hd]
  · intro p f t hp hf ht
    subst ht
    have hd := deltaPhase_eq o i f t hf
    refine ⟨hd, ?_⟩
    rw [process_phase, advance_fin o (Flt.fin t) i p _ hp hd]
    rfl

/-- C3: on a lane whose phase is in `[0, 1)` and whose product `freq * deltaTime` is not
positive, `process` leaves the phase unchanged and inserts nothing for that lane into the
square or the saw corrector, whatever the pulse width (also when the phase equals the
threshold, where the crossing fraction is `0 / 0`). -/
theorem C3_no_advance_no_event (r : float_4) (syncValue : float_4)
    (o : VoltageControlledOscillator (List Call)) (i : Fin 4) (p f t : ℚ)
    (hp : o.phase i = Flt.fin p) (hp0 : 0 ≤ p) (hp1 : p < 1)
    (hf : o.freq i = Flt.fin f) (hft : f * t ≤ 0) :
    (process (recorder r) (Flt.fin t) syncValue o).phase i = Flt.fin p ∧
    insertsFor i (process (recorder r) (Flt.fin t) syncValue o).sqrMinBlep =
      insertsFor i o.sqrMinBlep ∧
    insertsFor i (process (recorder r) (Flt.fin t) syncValue o).sawMinBlep =
      insertsFor i o.sawMinBlep := by
  have hd : o.deltaPhase (Flt.fin t) i = Flt.fin 0 := by
    rw [deltaPhase_eq o i f t hf, max_eq_right hft, min_eq_left (by norm_num)]
  refine ⟨?_, ?_, ?_⟩
  · rw [process_phase, advance_fin o (Flt.fin t) i p 0 hp hd]
    have hfl : (⌊p + 0⌋ : ℤ) = 0 := by
      rw [Int.floor_eq_iff]
      constructor <;> norm_num <;> linarith
    rw [hfl]
    simp
  · rw [sqr_inserts, pulseInsertions, pulseCrossing, laneCount_insertions,
      crossed_zero_step o (Flt.fin t) _ i hd]
    simp
  · rw [saw_inserts, halfInsertions, halfCrossing, laneCount_insertions,
      crossed_zero_step o (Flt.fin t) _ i hd]
    simp

/-- C3 at frequency 0, with the phase equal to both thresholds (`0 / 0`). -/
theorem C3_no_advance_no_event_witness :
    (process (recorder fun _ => Flt.fin 0) (Flt.fin (1 / 44100)) (fun _ => Flt.fin 0)
      { init [] [] with channels := 4, phase := fun _ => Flt.fin (1 / 2) }).phase 0 =
        Flt.fin (1 / 2) ∧
    insertsFor 0 (process (recorder fun _ => Flt.fin 0) (Flt.fin (1 / 44100))
      (fun _ => Flt.fin 0)
      { init [] [] with channels := 4, phase := fun _ => Flt.fin (1 / 2) }).sqrMinBlep =
        insertsFor 0 ([] : List Call) ∧
    insertsFor 0 (process (recorder fun _ => Flt.fin 0) (Flt.fin (1 / 44100))
      (fun _ => Flt.fin 0)
      { init [] [] with channels := 4, phase := fun _ => Flt.fin (1 / 2) }).sawMinBlep =
        insertsFor 0 ([] : List Call) :=
  C3_no_advance_no_event _ _ _ 0 (1 / 2) 0 (1 / 44100) rfl (by norm_num) (by norm_num) rfl
    (by norm_num)

/-- C2 at the initial oscillator, 100 Hz at 44100 Hz: the new phase is `wrap(0 + 1/441)`. -/
theorem C2_step_clamped_and_wrapped_witness :
    (process (recorder fun _ => Flt.fin 0) (Flt.fin (1 / 44100)) (fun _ => Flt.fin 0)
      { init [] [] with freq := fun _ => Flt.fin 100 }).phase 0 =
        Flt.fin (wrap (0 + min (max (100 * (1 / 44100)) 0) (7 / 20))) :=
  ((C2_step_clamped_and_wrapped (recorder fun _ => Flt.fin 0) (Flt.fin (1 / 44100))
    (fun _ => Flt.fin 0) { init [] [] with freq := fun _ => Flt.fin 100 } 0).2
      0 100 (1 / 44100) rfl rfl rfl).2

/-! ## The crossing detector -/

/-- One recorded tick on a lane with known phase, step, pulse width and floor. -/
theorem tick_eval (r : float_4) (deltaTime : Flt) (sv : float_4)
    (o : VoltageControlledOscillator (List Call)) (i : Fin 4) (p d w : ℚ) (fl : ℤ)
    (hp : o.phase i = Flt.fin p) (hd : o.deltaPhase deltaTime i = Flt.fin d)
    (hw : o.pulseWidth i = Flt.fin w) (hp0 : 0 ≤ p) (hp1 : p < 1) (hfl : ⌊p + d⌋ = fl) :
    (process (recorder r) deltaTime sv o).phase i = Flt.fin (p + d - fl) ∧
    insertsFor i (process (recorder r) deltaTime sv o).sqrMinBlep =
      insertsFor i o.sqrMinBlep +
        (if (i.val : Int) < o.channels ∧ 0 < d ∧
            ((p + d < 1 ∧ p < w ∧ w ≤ p + d) ∨ (1 ≤ p + d ∧ p < w + 1 ∧ w + 1 ≤ p + d))
          then 1 else 0) := by
  constructor
  · rw [process_phase, advance_fin o deltaTime i p d hp hd, hfl]
  · rw [sqr_inserts, pulseInsertions, pulseCrossing,
      laneCount_crossing o deltaTime _ i p d w hp hd hw hp0 hp1]

/-- The pulse edge is detected in every tick without wrap: on an active lane with phase
`p` in `[0, 1)`, pulse width `w` and applied step `d > 0`, if `p < w ≤ p + d < 1` then
`process` inserts exactly one discontinuity for the lane into the square corrector. -/
theorem pulse_edge_detected_without_wrap (r : float_4) (deltaTime : Flt) (sv : float_4)
    (o : VoltageControlledOscillator (List Call)) (i : Fin 4) (p d w : ℚ)
    (hi : (i.val : Int) < o.channels) (hp : o.phase i = Flt.fin p)
    (hd : o.deltaPhase deltaTime i = Flt.fin d) (hw : o.pulseWidth i = Flt.fin w)
    (hp0 : 0 ≤ p) (hp1 : p < 1) (hd0 : 0 < d) (hpw : p < w) (hwd : w ≤ p + d)
    (hnowrap : p + d < 1) :
    insertsFor i (process (recorder r) deltaTime sv o).sqrMinBlep =
      insertsFor i o.sqrMinBlep + 1 := by
  rw [(tick_eval r deltaTime sv o i p d w _ hp hd hw hp0 hp1 rfl).2,
    if_pos ⟨hi, hd0, Or.inl ⟨hnowrap, hpw, hwd⟩⟩]

/-- The run `edgeRun` traced over its first four calls. -/
theorem edgeRun_trace :
    (edgeRun 3).deltaPhase (Flt.fin (1 / 44100)) 0 = Flt.fin (3 / 10) ∧
    (edgeRun 3).phase 0 = Flt.fin (9 / 10) ∧
    (edgeRun 3).pulseWidth 0 = Flt.fin (19 / 20) ∧
    ((0 : Fin 4).val : Int) < (edgeRun 3).channels ∧
    ((9 / 10 : ℚ) < 19 / 20 ∧ (19 / 20 : ℚ) ≤ 9 / 10 + 3 / 10) ∧
    (edgeRun 4).phase 0 = Flt.fin (1 / 5) ∧
    insertsFor 0 (edgeRun 4).sqrMinBlep = 0 := by
  have hd : ∀ k, (edgeRun k).deltaPhase (Flt.fin (1 / 44100)) 0 = Flt.fin (3 / 10) := by
    intro k
    have hf : (edgeRun k).freq 0 = Flt.fin 13230 := by
      rw [edgeRun, (iterate_frame _ _ _ _ k).1]
      rfl
    rw [deltaPhase_eq _ 0 13230 (1 / 44100) hf]
    norm_num
  have hw : ∀ k, (edgeRun k).pulseWidth 0 = Flt.fin (19 / 20) := by
    intro k
    rw [edgeRun, (iterate_frame _ _ _ _ k).2.1]
    rfl
  have hc : ∀ k, (edgeRun k).channels = 1 := by
    intro k
    rw [edgeRun, (iterate_frame _ _ _ _ k).2.2]
    rfl
  have hs : ∀ k, edgeRun (k + 1) = process (recorder fun _ => Flt.fin 0)
      (Flt.fin (1 / 44100)) (fun _ => Flt.fin 0) (edgeRun k) := by
    intro k
    rw [edgeRun, Function.iterate_succ_apply']
    rfl
  have e0 := tick_eval (fun _ => Flt.fin 0) (Flt.fin (1 / 44100)) (fun _ => Flt.fin 0)
    (edgeRun 0) 0 0 (3 / 10) (19 / 20) 0 rfl (hd 0) (hw 0) (by norm_num) (by norm_num)
    (by rw [Int.floor_eq_iff]; constructor <;> norm_num)
  rw [← hs 0, hc 0] at e0
  have p1 : (edgeRun 1).phase 0 = Flt.fin (3 / 10) := by rw [e0.1]; norm_num
  have c1 : insertsFor 0 (edgeRun 1).sqrMinBlep = 0 := by
    rw [e0.2]; norm_num [insertsFor, edgeRun, edgeStart, init]
  have e1 := tick_eval (fun _ => Flt.fin 0) (Flt.fin (1 / 44100)) (fun _ => Flt.fin 0)
    (edgeRun 1) 0 (3 / 10) (3 / 10) (19 / 20) 0 p1 (hd 1) (hw 1) (by norm_num) (by norm_num)
    (by rw [Int.floor_eq_iff]; constructor <;> norm_num)
  rw [← hs 1, hc 1, c1] at e1
  have p2 : (edgeRun 2).phase 0 = Flt.fin (3 / 5) := by rw [e1.1]; norm_num
  have c2 : insertsFor 0 (edgeRun 2).sqrMinBlep = 0 := by
    rw [e1.2]; norm_num
  have e2 := tick_eval (fun _ => Flt.fin 0) (Flt.fin (1 / 44100)) (fun _ => Flt.fin 0)
    (edgeRun 2) 0 (3 / 5) (3 / 10) (19 / 20) 0 p2 (hd 2) (hw 2) (by norm_num) (by norm_num)
    (by rw [Int.floor_eq_iff]; constructor <;> norm_num)
  rw [← hs 2, hc 2, c2] at e2
  have p3 : (edgeRun 3).phase 0 = Flt.fin (9 / 10) := by rw [e2.1]; norm_num
  have c3 : insertsFor 0 (edgeRun 3).sqrMinBlep = 0 := by
    rw [e2.2]; norm_num
  have e3 := tick_eval (fun _ => Flt.fin 0) (Flt.fin (1 / 44100)) (fun _ => Flt.fin 0)
    (edgeRun 3) 0 (9 / 10) (3 / 10) (19 / 20) 1 p3 (hd 3) (hw 3) (by norm_num) (by norm_num)
    (by rw [Int.floor_eq_iff]; constructor <;> norm_num)
  rw [← hs 3, hc 3, c3] at e3
  have p4 : (edgeRun 4).phase 0 = Flt.fin (1 / 5) := by rw [e3.1]; norm_num
  have c4 : insertsFor 0 (edgeRun 4).sqrMinBlep = 0 := by
    rw [e3.2]; norm_num
  exact ⟨hd 3, p3, hw 3, by rw [hc 3]; decide, ⟨by norm_num, by norm_num⟩, p4, c4⟩

/-- C4, a run in which the code misses a pulse edge: an oscillator as constructed with
lane 0 active, pulse width 0.95 and a constant step 0.3 (13230 Hz at 44100 Hz) is at
phase 0.9 after three calls of `process`; the fourth call passes the pulse-width boundary
(`0.9 < 0.95 ≤ 0.9 + 0.3`) and wraps to phase 0.2, and after it the square corrector has
received no insertion for the lane. -/
theorem C4_edge_missed_on_wrap :
    (edgeRun 3).deltaPhase (Flt.fin (1 / 44100)) 0 = Flt.fin (3 / 10) ∧
    (edgeRun 3).phase 0 = Flt.fin (9 / 10) ∧
    (edgeRun 3).pulseWidth 0 = Flt.fin (19 / 20) ∧
    ((0 : Fin 4).val : Int) < (edgeRun 3).channels ∧
    ((9 / 10 : ℚ) < 19 / 20 ∧ (19 / 20 : ℚ) ≤ 9 / 10 + 3 / 10) ∧
    (edgeRun 4).phase 0 = Flt.fin (1 / 5) ∧
    insertsFor 0 (edgeRun 4).sqrMinBlep = 0 :=
  edgeRun_trace

/-! ## The inserted events -/

/-- C8: every discontinuity `process` inserts, into either corrector, has an amplitude
vector that is exactly `-2` in one lane `i` with `i < channels` and exactly `0` in every
other lane; a lane at or above `channels` therefore never receives a non-zero amplitude,
and no lane ever receives an amplitude other than `-2` or `0`. -/
theorem C8_amplitude_single_active_lane (r : float_4) (deltaTime : Flt) (syncValue : float_4)
    (o : VoltageControlledOscillator (List Call)) :
    ∃ sq sw : List (Flt × float_4),
      (process (recorder r) deltaTime syncValue o).sqrMinBlep =
        o.sqrMinBlep ++ asCalls sq ++ [Call.process] ∧
      (process (recorder r) deltaTime syncValue o).sawMinBlep =
        o.sawMinBlep ++ asCalls sw ++ [Call.process] ∧
      ∀ e, e ∈ sq ∨ e ∈ sw →
        (∃ i : Fin 4, (i.val : Int) < o.channels ∧ e.2 i = Flt.fin (-2) ∧
          ∀ j : Fin 4, j ≠ i → e.2 j = Flt.fin 0) ∧
        (∀ j : Fin 4, o.channels ≤ (j.val : Int) → e.2 j = Flt.fin 0) ∧
        (∀ j : Fin 4, e.2 j = Flt.fin (-2) ∨ e.2 j = Flt.fin 0) := by
  have key : ∀ (c : float_4) (e : Flt × float_4),
      e ∈ insertions o.channels (crossingMask c) c →
      (∃ i : Fin 4, (i.val : Int) < o.channels ∧ e.2 i = Flt.fin (-2) ∧
          ∀ j : Fin 4, j ≠ i → e.2 j = Flt.fin 0) ∧
        (∀ j : Fin 4, o.channels ≤ (j.val : Int) → e.2 j = Flt.fin 0) ∧
        (∀ j : Fin 4, e.2 j = Flt.fin (-2) ∨ e.2 j = Flt.fin 0) := by
    intro c e he
    obtain ⟨i, hi, _, rfl⟩ := (mem_insertions _ _ e).mp he
    refine ⟨⟨i, hi, by simp, fun j hj => ?_⟩, fun j hj => ?_, fun j => ?_⟩
    · have : ¬ i = j := fun h => hj h.symm
      simp [this]
    · have : ¬ i = j := by
        rintro rfl
        omega
      simp [this]
    · by_cases h : i = j
      · left; simp [h]
      · right; simp [h]
  refine ⟨o.pulseInsertions deltaTime, o.halfInsertions deltaTime,
    process_sqr_trace r deltaTime syncValue o, process_saw_trace r deltaTime syncValue o, ?_⟩
  rintro e (he | he)
  · exact key _ e he
  · exact key _ e he

/-! ## The outputs -/

/-- C9: in every call of `process`, for any corrector implementation, each stored output
is the naive evaluator at the advanced phase plus the value returned by one `process()`
of its corrector, run on the corrector state that has received all insertions of this
tick; on the recording corrector the calls of this tick are the insertions followed by
exactly one `process()`, whether or not there was an insertion. -/
theorem C9_output_is_naive_plus_correction {σ : Type} (M : MinBlepGenerator σ) (deltaTime : Flt)
    (syncValue : float_4) (o : VoltageControlledOscillator σ) (r : float_4)
    (t : VoltageControlledOscillator (List Call)) :
    (process M deltaTime syncValue o).sqrValue =
      (fun i => (process M deltaTime syncValue o).sqr (process M deltaTime syncValue o).phase i +
        (M.process ((o.pulseInsertions deltaTime).foldl
          (fun s e => M.insertDiscontinuity e.1 e.2 s) o.sqrMinBlep)).1 i) ∧
    (process M deltaTime syncValue o).sqrMinBlep =
      (M.process ((o.pulseInsertions deltaTime).foldl
        (fun s e => M.insertDiscontinuity e.1 e.2 s) o.sqrMinBlep)).2 ∧
    (process M deltaTime syncValue o).sawValue =
      (fun i => (process M deltaTime syncValue o).saw (process M deltaTime syncValue o).phase i +
        (M.process ((o.halfInsertions deltaTime).foldl
          (fun s e => M.insertDiscontinuity e.1 e.2 s) o.sawMinBlep)).1 i) ∧
    (process M deltaTime syncValue o).sawMinBlep =
      (M.process ((o.halfInsertions deltaTime).foldl
        (fun s e => M.insertDiscontinuity e.1 e.2 s) o.sawMinBlep)).2 ∧
    (process (recorder r) deltaTime syncValue t).sqrMinBlep =
      t.sqrMinBlep ++ asCalls (t.pulseInsertions deltaTime) ++ [Call.process] ∧
    (process (recorder r) deltaTime syncValue t).sawMinBlep =
      t.sawMinBlep ++ asCalls (t.halfInsertions deltaTime) ++ [Call.process] ∧
    (process (recorder r) deltaTime syncValue t).sqrValue =
      (fun i => t.sqr (t.advance deltaTime) i + r i) ∧
    (process (recorder r) deltaTime syncValue t).sawValue =
      (fun i => t.saw (t.advance deltaTime) i + r i) :=
  ⟨rfl, rfl, rfl, rfl, process_sqr_trace r deltaTime syncValue t,
    process_saw_trace r deltaTime syncValue t, rfl, rfl⟩

/-- C10: for every phase and pulse width, `sqr(phase)` is `+1` in the lanes where
`phase < pulseWidth` and `-1` in the others (also on NaN, where the comparison is false);
its value is `+1` or `-1`, and it depends on no other field of the oscillator. -/
theorem C10_sqr_two_level {σ : Type} (o : VoltageControlledOscillator σ) (phase : float_4)
    (i : Fin 4) :
    o.sqr phase i = (if Flt.lt (phase i) (o.pulseWidth i) = true then Flt.fin 1 else Flt.fin (-1)) ∧
    (∀ p w : ℚ, phase i = Flt.fin p → o.pulseWidth i = Flt.fin w →
      o.sqr phase i = if p < w then Flt.fin 1 else Flt.fin (-1)) ∧
    (o.sqr phase i = Flt.fin 1 ∨ o.sqr phase i = Flt.fin (-1)) ∧
    (∀ o' : VoltageControlledOscillator σ, o'.pulseWidth i = o.pulseWidth i →
      o'.sqr phase i = o.sqr phase i) := by
  refine ⟨rfl, ?_, ?_, ?_⟩
  · intro p w hp hw
    simp only [sqr, Flt.ifelse, hp, hw, Flt.lt_fin_fin, decide_eq_true_eq]
  · unfold sqr Flt.ifelse
    split_ifs
    · exact Or.inl rfl
    · exact Or.inr rfl
  · intro o' h
    simp only [sqr, h]

/-- C10 at phase 0.25 and the initial pulse width 0.5: the square is `+1`. -/
theorem C10_sqr_two_level_witness :
    (init () () : VoltageControlledOscillator Unit).sqr (fun _ => Flt.fin (1 / 4)) 0 =
      if (1 / 4 : ℚ) < 1 / 2 then Flt.fin 1 else Flt.fin (-1) :=
  (C10_sqr_two_level (init () () : VoltageControlledOscillator Unit) (fun _ => Flt.fin (1 / 4)) 0).2.1
    (1 / 4) (1 / 2) rfl rfl

/-! ## The naive saw -/

theorem Flt.neg_fin (a : ℚ) : (-(Flt.fin a) : Flt) = Flt.fin (-a) := rfl

theorem Flt.trunc_fin_nonneg (a : ℚ) (h : 0 ≤ a) :
    Flt.trunc (Flt.fin a) = Flt.fin (⌊a⌋ : ℤ) := by
  simp [Flt.trunc, h]

theorem wrap_nonneg (x : ℚ) : 0 ≤ wrap x := Int.fract_nonneg x

theorem wrap_lt_one (x : ℚ) : wrap x < 1 := Int.fract_lt_one x

/-- The saw argument of a phase in the first half cycle. -/
theorem wrap_half_lt (p : ℚ) (hp0 : 0 ≤ p) (hp : p < 1 / 2) : wrap (p + 1 / 2) = p + 1 / 2 := by
  have hfl : (⌊p + 1 / 2⌋ : ℤ) = 0 := by
    rw [Int.floor_eq_iff]
    constructor <;> norm_num <;> linarith
  rw [wrap, hfl]
  simp

/-- The saw argument of a phase in the second half cycle. -/
theorem wrap_half_ge (p : ℚ) (hp : 1 / 2 ≤ p) (hp1 : p < 1) : wrap (p + 1 / 2) = p - 1 / 2 := by
  have hfl : (⌊p + 1 / 2⌋ : ℤ) = 1 := by
    rw [Int.floor_eq_iff]
    constructor <;> norm_num <;> linarith
  rw [wrap, hfl]
  push_cast
  ring

/-- On a finite argument with non-zero denominator `expCurve` is the curve `shape`. -/
theorem expCurve_fin (x : ℚ) (h : 3 + 2 * x ≠ 0) : expCurve (Flt.fin x) = Flt.fin (shape x) := by
  simp [expCurve, Flt.fin_div_fin, h, shape]

/-- The argument `x` that `saw` computes from a non-negative finite phase. -/
theorem saw_arg (p : ℚ) (hp0 : 0 ≤ p) :
    Flt.fin p + Flt.fin (1 / 2) - Flt.trunc (Flt.fin p + Flt.fin (1 / 2)) =
      Flt.fin (wrap (p + 1 / 2)) := by
  rw [Flt.fin_add_fin, Flt.trunc_fin_nonneg _ (by linarith), Flt.fin_sub_fin]
  rfl

namespace VoltageControlledOscillator

variable {σ : Type}

theorem saw_linear (o : VoltageControlledOscillator σ) (phase : float_4) (i : Fin 4) (p : ℚ)
    (ha : o.analog = false) (hp : phase i = Flt.fin p) (hp0 : 0 ≤ p) :
    o.saw phase i = Flt.fin (2 * wrap (p + 1 / 2) - 1) := by
  simp only [saw, ha, hp, saw_arg p hp0]
  simp

theorem saw_analog (o : VoltageControlledOscillator σ) (phase : float_4) (i : Fin 4) (p : ℚ)
    (ha : o.analog = true) (hp : phase i = Flt.fin p) (hp0 : 0 ≤ p) :
    o.saw phase i = -expCurve (Flt.fin (wrap (p + 1 / 2))) := by
  simp only [saw, ha, hp, saw_arg p hp0]
  simp

end VoltageControlledOscillator

/-- The denominator of the curve is positive on `[0, 1]`. -/
theorem shape_den_pos (x : ℚ) (h0 : 0 ≤ x) : (0 : ℚ) < 3 + 2 * x := by linarith

/-- C11: with analog mode off and a phase `p ≥ 0`, in particular for every `p` in `[0, 1)`,
the naive saw is `2x - 1` with `x = wrap(p + 0.5)`; the truncation the code uses agrees
with the floor there, and the value is in `[-1, 1)`. -/
theorem C11_saw_linear_ramp {σ : Type} (o : VoltageControlledOscillator σ) (phase : float_4)
    (i : Fin 4) (p : ℚ) (ha : o.analog = false) (hp : phase i = Flt.fin p)
    (hp0 : 0 ≤ p) :
    Flt.trunc (phase i + Flt.fin (1 / 2)) = Flt.floor (phase i + Flt.fin (1 / 2)) ∧
    o.saw phase i = Flt.fin (2 * wrap (p + 1 / 2) - 1) ∧
    wrap (p + 1 / 2) = p + 1 / 2 - (⌊p + 1 / 2⌋ : ℤ) ∧
    -1 ≤ 2 * wrap (p + 1 / 2) - 1 ∧ 2 * wrap (p + 1 / 2) - 1 < 1 := by
  refine ⟨?_, saw_linear o phase i p ha hp hp0, rfl, ?_, ?_⟩
  · rw [hp, Flt.fin_add_fin, Flt.trunc_fin_nonneg _ (by linarith), Flt.floor_fin]
  · linarith [wrap_nonneg (p + 1 / 2)]
  · linarith [wrap_lt_one (p + 1 / 2)]

/-- C11 at phase 0.25 of the oscillator as constructed (analog off): the saw is
`2 * wrap(0.75) - 1`. -/
theorem C11_saw_linear_ramp_witness :
    (init () () : VoltageControlledOscillator Unit).saw (fun _ => Flt.fin (1 / 4)) 0 =
      Flt.fin (2 * wrap (1 / 4 + 1 / 2) - 1) :=
  (C11_saw_linear_ramp (init () () : VoltageControlledOscillator Unit)
    (fun _ => Flt.fin (1 / 4)) 0 (1 / 4) rfl rfl (by norm_num)).2.1

/-- C12: with analog mode on and a phase `p ≥ 0`, in particular for every `p` in `[0, 1)`,
the naive saw is `-expCurve(x)`
with `x = wrap(p + 0.5)`, which is `-shape(x)` for
`shape(x) = (3 + x(-13 + 5x)) / (3 + 2x)`; the curve is 1 at 0 and -1 at 1. -/
theorem C12_saw_analog_shape {σ : Type} (o : VoltageControlledOscillator σ) (phase : float_4)
    (i : Fin 4) (p : ℚ) (ha : o.analog = true) (hp : phase i = Flt.fin p)
    (hp0 : 0 ≤ p) :
    o.saw phase i = -expCurve (Flt.fin (wrap (p + 1 / 2))) ∧
    o.saw phase i = Flt.fin (-shape (wrap (p + 1 / 2))) ∧
    expCurve (Flt.fin 0) = Flt.fin 1 ∧ expCurve (Flt.fin 1) = Flt.fin (-1) := by
  have hden : 3 + 2 * wrap (p + 1 / 2) ≠ 0 :=
    ne_of_gt (shape_den_pos _ (wrap_nonneg _))
  refine ⟨saw_analog o phase i p ha hp hp0, ?_, ?_, ?_⟩
  · rw [saw_analog o phase i p ha hp hp0, expCurve_fin _ hden, Flt.neg_fin]
  · rw [expCurve_fin 0 (by norm_num)]
    norm_num [shape]
  · rw [expCurve_fin 1 (by norm_num)]
    norm_num [shape]

/-- C12 at phase 0.25 with analog mode on: the saw is `-shape(wrap(0.75))`. -/
theorem C12_saw_analog_shape_witness :
    ({ (init () () : VoltageControlledOscillator Unit) with analog := true }).saw
        (fun _ => Flt.fin (1 / 4)) 0 =
      Flt.fin (-shape (wrap (1 / 4 + 1 / 2))) :=
  (C12_saw_analog_shape { (init () () : VoltageControlledOscillator Unit) with analog := true }
    (fun _ => Flt.fin (1 / 4)) 0 (1 / 4) rfl rfl (by norm_num)).2.1

/-! ## The pulse width -/

/-- A clamp between finite bounds `a ≤ b` is finite and within the bounds, also on the
special values. -/
theorem Flt.clamp_bounds (x : Flt) (a b : ℚ) (hab : a ≤ b) :
    ∃ d : ℚ, Flt.clamp x (Flt.fin a) (Flt.fin b) = Flt.fin d ∧ a ≤ d ∧ d ≤ b := by
  cases x with
  | fin q =>
    exact ⟨min (max q a) b, Flt.clamp_fin q a b hab, le_min (le_max_right _ _) hab,
      min_le_right _ _⟩
  | pinf => exact ⟨b, by simp [Flt.clamp, Flt.fmax, Flt.fmin, Flt.lt], hab, le_refl _⟩
  | ninf =>
    refine ⟨min a b, ?_, le_min (le_refl _) hab, min_le_right _ _⟩
    rw [min_eq_left hab]
    rcases lt_or_eq_of_le hab with h | h
    · simp [Flt.clamp, Flt.fmax, Flt.fmin, Flt.lt, h]
    · simp [Flt.clamp, Flt.fmax, Flt.fmin, Flt.lt, h]
  | nan =>
    refine ⟨min a b, ?_, le_min (le_refl _) hab, min_le_right _ _⟩
    rw [min_eq_left hab]
    rcases lt_or_eq_of_le hab with h | h
    · simp [Flt.clamp, Flt.fmax, Flt.fmin, Flt.lt, h]
    · simp [Flt.clamp, Flt.fmax, Flt.fmin, Flt.lt, h]

/-- A value already within the bounds passes the clamp unchanged. -/
theorem Flt.clamp_of_mem (w a b : ℚ) (h0 : a ≤ w) (h1 : w ≤ b) :
    Flt.clamp (Flt.fin w) (Flt.fin a) (Flt.fin b) = Flt.fin w := by
  rw [Flt.clamp_fin w a b (le_trans h0 h1), max_eq_left h0, min_eq_left h1]

/-- A tick of the batch keeps the pulse width that `setPulseWidth` stored. -/
theorem VCO.batchOscillator_pulseWidth {σ : Type} (M : MinBlepGenerator σ) (exp2 : Flt → Flt)
    (args : ProcessArgs) (channels : Int) (params : ParamId → Flt) (inputs : InputId → Input)
    (c : Nat) (o : VoltageControlledOscillator σ) :
    (VCO.batchOscillator M exp2 args channels params inputs c o).pulseWidth =
      (o.setPulseWidth (VCO.pulseWidthInput params inputs c)).pulseWidth := rfl

/-- C13: the pulse width stored by `setPulseWidth` is finite and in `[0.01, 0.99]` for
every input; applying `setPulseWidth` to a stored pulse width changes nothing; and for a
finite base pulse width `b`, PWM voltage `v` and PWM depth `k`, the pulse width that
`VCO::process` stores is `clamp(b + (v / 10) * k, 0.01, 0.99)`, equal to the unclamped
value whenever that is in `[0.01, 0.99]`. -/
theorem C13_pulse_width_clamped {σ : Type} (M : MinBlepGenerator σ) (exp2 : Flt → Flt)
    (args : ProcessArgs) (channels : Int) (params : ParamId → Flt) (inputs : InputId → Input)
    (c : Nat) (o : VoltageControlledOscillator σ) (j : Fin 4) :
    (∀ pw : float_4, ∃ w : ℚ, (o.setPulseWidth pw).pulseWidth j = Flt.fin w ∧
      1 / 100 ≤ w ∧ w ≤ 99 / 100) ∧
    (∀ pw : float_4,
      (o.setPulseWidth pw).setPulseWidth (o.setPulseWidth pw).pulseWidth = o.setPulseWidth pw) ∧
    (∀ b v k : ℚ, params ParamId.PULSEW_PARAM = Flt.fin b →
      (inputs InputId.PWMCV_INPUT).getPolyVoltageSimd c j = Flt.fin v →
      params ParamId.PWMCVLVL_PARAM = Flt.fin k →
      (VCO.batchOscillator M exp2 args channels params inputs c o).pulseWidth j =
        Flt.fin (min (max (b + v / 10 * k) (1 / 100)) (99 / 100)) ∧
      (1 / 100 ≤ b + v / 10 * k → b + v / 10 * k ≤ 99 / 100 →
        (VCO.batchOscillator M exp2 args channels params inputs c o).pulseWidth j =
          Flt.fin (b + v / 10 * k))) := by
  have hb : ((1 : ℚ) - 1 / 100) = 99 / 100 := by norm_num
  refine ⟨?_, ?_, ?_⟩
  · intro pw
    simp only [setPulseWidth, hb]
    exact Flt.clamp_bounds (pw j) (1 / 100) (99 / 100) (by norm_num)
  · intro pw
    simp only [setPulseWidth, hb]
    congr 1
    funext l
    obtain ⟨w, hw, h0, h1⟩ := Flt.clamp_bounds (pw l) (1 / 100) (99 / 100) (by norm_num)
    rw [hw, Flt.clamp_of_mem w _ _ h0 h1]
  · intro b v k hpb hv hk
    have hpw : VCO.pulseWidthInput params inputs c j = Flt.fin (b + v / 10 * k) := by
      simp [VCO.pulseWidthInput, hpb, hv, hk, Flt.fin_div_fin]
    have hstored : (VCO.batchOscillator M exp2 args channels params inputs c o).pulseWidth j =
        Flt.clamp (Flt.fin (b + v / 10 * k)) (Flt.fin (1 / 100)) (Flt.fin (99 / 100)) := by
      rw [VCO.batchOscillator_pulseWidth]
      simp only [setPulseWidth, hb, hpw]
    refine ⟨?_, fun h0 h1 => ?_⟩
    · rw [hstored, Flt.clamp_fin _ _ _ (by norm_num)]
    · rw [hstored, Flt.clamp_of_mem _ _ _ h0 h1]

/-! ## The polyphonic loop -/

namespace VCO

variable {σ : Type}

/-- The loop variable takes the values `c, c + 4, ...` below `channels`. -/
theorem batchLoop_eq (channels : Int) (k : Nat) :
    ∀ c : Nat, ((channels - c).toNat + 3) / 4 = k →
      batchLoop channels c = (List.range k).map fun b => c + 4 * b := by
  induction k with
  | zero =>
    intro c hk
    rw [batchLoop, if_neg (by omega)]
    rfl
  | succ k ih =>
    intro c hk
    rw [batchLoop, if_pos (by omega), ih (c + 4) (by push_cast; omega),
      List.range_succ_eq_map, List.map_cons, List.map_map]
    congr 1
    apply List.map_congr_left
    intro b _
    simp only [Function.comp]
    omega

theorem batchOscillator_channels (M : MinBlepGenerator σ) (exp2 : Flt → Flt)
    (args : ProcessArgs) (channels : Int) (params : ParamId → Flt) (inputs : InputId → Input)
    (c : Nat) (o : VoltageControlledOscillator σ) :
    (batchOscillator M exp2 args channels params inputs c o).channels = min (channels - c) 4 :=
  rfl

theorem batchOscillator_analog (M : MinBlepGenerator σ) (exp2 : Flt → Flt)
    (args : ProcessArgs) (channels : Int) (params : ParamId → Flt) (inputs : InputId → Input)
    (c : Nat) (o : VoltageControlledOscillator σ) :
    (batchOscillator M exp2 args channels params inputs c o).analog = true :=
  rfl

/-- One batch inside the array: the module after it. -/
theorem batch_some (M : MinBlepGenerator σ) (exp2 : Flt → Flt) (args : ProcessArgs)
    (channels : Int) (m : VCO σ) (b : Fin 4) :
    ∃ m' : VCO σ, batch M exp2 args channels m (0 + 4 * b.val) = some m' ∧
      m'.params = m.params ∧ m'.inputs = m.inputs ∧
      m'.oscillators = Function.update m.oscillators b
        (batchOscillator M exp2 args channels m.params m.inputs (0 + 4 * b.val)
          (m.oscillators b)) := by
  have h : (0 + 4 * b.val) / 4 < 4 := by omega
  have hb : (⟨(0 + 4 * b.val) / 4, h⟩ : Fin 4) = b := Fin.ext (by simp)
  unfold batch
  rw [dif_pos h]
  simp only [hb]
  exact ⟨_, rfl, rfl, rfl, rfl⟩

/-- One batch outside the array has no result. -/
theorem batch_none (M : MinBlepGenerator σ) (exp2 : Flt → Flt) (args : ProcessArgs)
    (channels : Int) (m : VCO σ) (c : Nat) (hc : 4 ≤ c / 4) :
    batch M exp2 args channels m c = none := by
  unfold batch
  rw [dif_neg (by omega)]

/-- The module after the first `k ≤ 4` batches: batch `b < k` has been processed from its
old oscillator, the others are untouched. -/
theorem foldlM_batches (M : MinBlepGenerator σ) (exp2 : Flt → Flt) (args : ProcessArgs)
    (channels : Int) (m : VCO σ) (k : Nat) (hk : k ≤ 4) :
    ∃ m' : VCO σ,
      ((List.range k).map fun b => 0 + 4 * b).foldlM (batch M exp2 args channels) m = some m' ∧
      m'.params = m.params ∧ m'.inputs = m.inputs ∧
      ∀ b : Fin 4, m'.oscillators b =
        if b.val < k then
          batchOscillator M exp2 args channels m.params m.inputs (0 + 4 * b.val) (m.oscillators b)
        else m.oscillators b := by
  induction k with
  | zero => exact ⟨m, rfl, rfl, rfl, fun b => by simp⟩
  | succ k ih =>
    obtain ⟨mk, hfold, hpar, hinp, hosc⟩ := ih (by omega)
    obtain ⟨m', hb, hpar', hinp', hosc'⟩ := batch_some M exp2 args channels mk ⟨k, by omega⟩
    refine ⟨m', ?_, hpar'.trans hpar, hinp'.trans hinp, fun b => ?_⟩
    · rw [List.range_succ, List.map_append, List.foldlM_append, hfold]
      simpa using hb
    · rw [hosc', Function.update_apply]
      by_cases hbk : b = ⟨k, by omega⟩
      · subst hbk
        rw [if_pos rfl, if_pos (by simp), hpar, hinp, hosc, if_neg (by simp)]
      · have hne : b.val ≠ k := fun h => hbk (Fin.ext h)
        rw [if_neg hbk, hosc]
        by_cases hlt : b.val < k
        · rw [if_pos hlt, if_pos (by omega)]
        · rw [if_neg hlt, if_neg (by omega)]

/-- The result of `VCO::process` when the channel count needs at most 4 batches. -/
theorem process_some (M : MinBlepGenerator σ) (exp2 : Flt → Flt) (args : ProcessArgs)
    (m : VCO σ) (hk : ((channelCount m.inputs).toNat + 3) / 4 ≤ 4) :
    ∃ m' : VCO σ, process M exp2 args m = some m' ∧
      (∀ id, (m'.outputs id).channels = channelCount m.inputs) ∧
      ∀ b : Fin 4, m'.oscillators b =
        if b.val < ((channelCount m.inputs).toNat + 3) / 4 then
          batchOscillator M exp2 args (channelCount m.inputs) m.params m.inputs (0 + 4 * b.val)
            (m.oscillators b)
        else m.oscillators b := by
  obtain ⟨mk, hfold, _, _, hosc⟩ :=
    foldlM_batches M exp2 args (channelCount m.inputs) m _ hk
  refine ⟨{ mk with outputs := fun id => (mk.outputs id).setChannels (channelCount m.inputs) },
    ?_, fun id => rfl, hosc⟩
  unfold process
  simp only
  rw [batchLoop_eq (channelCount m.inputs) (((channelCount m.inputs).toNat + 3) / 4) 0
    (by simp), hfold]
  rfl

end VCO

/-- C13 at base pulse width 0.5, PWM voltage 10 V and depth 0.5: the stored pulse width is
`clamp(0.5 + (10 / 10) * 0.5, 0.01, 0.99)`. -/
theorem C13_pulse_width_clamped_witness :
    (VCO.batchOscillator (recorder fun _ => Flt.fin 0) (fun x => x)
        { sampleRate := Flt.fin 44100, sampleTime := Flt.fin (1 / 44100) } 1
        (fun _ => Flt.fin (1 / 2))
        (fun _ => { channels := 1, voltages := fun _ => Flt.fin 10 }) 0
        (init [] [])).pulseWidth 0 =
      Flt.fin (min (max (1 / 2 + 10 / 10 * (1 / 2)) (1 / 100)) (99 / 100)) :=
  ((C13_pulse_width_clamped (recorder fun _ => Flt.fin 0) (fun x => x)
      { sampleRate := Flt.fin 44100, sampleTime := Flt.fin (1 / 44100) } 1
      (fun _ => Flt.fin (1 / 2))
      (fun _ => { channels := 1, voltages := fun _ => Flt.fin 10 }) 0
      (init [] []) 0).2.2 (1 / 2) 10 (1 / 2) rfl rfl rfl).1

/-- C14: for a voice count `N` with `1 ≤ N ≤ 16` reported by the pitch input,
`VCO::process` runs the oscillators `0 .. ceil(N/4) - 1` in order and no other, sets the
active-lane count of batch `b` to `min(N - 4b, 4)`, which is positive and at most 4, gives
the last batch `N mod 4` lanes (4 when 4 divides `N`), and the active-lane counts of the
batches it ran sum to `N`. -/
theorem C14_polyphony_partition {σ : Type} (M : MinBlepGenerator σ) (exp2 : Flt → Flt)
    (args : ProcessArgs) (m : VCO σ) (N : Int) (h1 : 1 ≤ N) (h16 : N ≤ 16)
    (hN : (m.inputs InputId._1V_INPUT).channels = N) :
    ∃ m' : VCO σ, VCO.process M exp2 args m = some m' ∧
      (VCO.batchLoop (VCO.channelCount m.inputs) 0).map (fun c => c / 4) =
        List.range ((N.toNat + 3) / 4) ∧
      (((N.toNat + 3) / 4 : ℕ) : ℤ) = ⌈(N : ℚ) / 4⌉ ∧
      (∀ b : Fin 4, b.val < (N.toNat + 3) / 4 →
        (m'.oscillators b).channels = min (N - 4 * b.val) 4 ∧
        0 < (m'.oscillators b).channels ∧ (m'.oscillators b).channels ≤ 4) ∧
      (∀ b : Fin 4, b.val + 1 = (N.toNat + 3) / 4 →
        (m'.oscillators b).channels = if N % 4 = 0 then 4 else N % 4) ∧
      (∑ b : Fin 4, if b.val < (N.toNat + 3) / 4 then (m'.oscillators b).channels else 0) = N ∧
      (∀ b : Fin 4, (N.toNat + 3) / 4 ≤ b.val → m'.oscillators b = m.oscillators b) := by
  have hcc : VCO.channelCount m.inputs = N := by
    rw [VCO.channelCount, hN, max_eq_left h1]
  obtain ⟨m', hproc, _, hosc⟩ := VCO.process_some M exp2 args m (by rw [hcc]; omega)
  rw [hcc] at hosc
  have hch : ∀ b : Fin 4, b.val < (N.toNat + 3) / 4 →
      (m'.oscillators b).channels = min (N - 4 * b.val) 4 := by
    intro b hb
    rw [hosc b, if_pos hb, VCO.batchOscillator_channels]
    push_cast
    simp
  refine ⟨m', hproc, ?_, ?_, ?_, ?_, ?_, ?_⟩
  · rw [hcc, VCO.batchLoop_eq N ((N.toNat + 3) / 4) 0 (by simp), List.map_map]
    conv_rhs => rw [← List.map_id (List.range ((N.toNat + 3) / 4))]
    apply List.map_congr_left
    intro b _
    simp only [Function.comp, id]
    omega
  · symm
    rw [Int.ceil_eq_iff]
    have ha : 4 * (((N.toNat + 3) / 4 : ℕ) : ℤ) - 3 ≤ N := by omega
    have hb : N ≤ 4 * (((N.toNat + 3) / 4 : ℕ) : ℤ) := by omega
    have ha' : (4 : ℚ) * ((((N.toNat + 3) / 4 : ℕ) : ℤ) : ℚ) - 3 ≤ (N : ℚ) := by
      exact_mod_cast ha
    have hb' : (N : ℚ) ≤ 4 * ((((N.toNat + 3) / 4 : ℕ) : ℤ) : ℚ) := by exact_mod_cast hb
    constructor <;> linarith
  · intro b hb
    rw [hch b hb]
    refine ⟨rfl, ?_, ?_⟩ <;> omega
  · intro b hb
    rw [hch b (by omega)]
    split_ifs <;> omega
  · have hsum : ∀ b : Fin 4,
        (if b.val < (N.toNat + 3) / 4 then (m'.oscillators b).channels else 0) =
          if b.val < (N.toNat + 3) / 4 then min (N - 4 * b.val) 4 else 0 := by
      intro b
      by_cases hb : b.val < (N.toNat + 3) / 4
      · rw [if_pos hb, if_pos hb, hch b hb]
      · rw [if_neg hb, if_neg hb]
    simp only [hsum, Fin.sum_univ_four]
    simp only [Fin.val_zero, Fin.val_one, Fin.val_two]
    have h3 : ((3 : Fin 4).val : ℤ) = 3 := rfl
    have h3' : (3 : Fin 4).val = 3 := rfl
    rw [h3, h3']
    split_ifs <;> omega
  · intro b hb
    rw [hosc b, if_neg (by omega)]

/-- C14 at 6 voices: two batches, with 4 and 2 active lanes. -/
theorem C14_polyphony_partition_witness :
    ∃ m' : VCO (List Call),
      VCO.process (recorder fun _ => Flt.fin 0) (fun x => x)
        { sampleRate := Flt.fin 44100, sampleTime := Flt.fin (1 / 44100) }
        (idleModule 6) = some m' ∧
      (m'.oscillators 0).channels = min (6 - 4 * ((0 : Fin 4).val : ℤ)) 4 ∧
      (m'.oscillators 1).channels = min (6 - 4 * ((1 : Fin 4).val : ℤ)) 4 := by
  obtain ⟨m', h, _, _, hch, _⟩ :=
    C14_polyphony_partition (recorder fun _ => Flt.fin 0) (fun x => x)
      { sampleRate := Flt.fin 44100, sampleTime := Flt.fin (1 / 44100) }
      (idleModule 6) 6 (by decide) (by decide) rfl
  exact ⟨m', h, (hch 0 (by decide)).1, (hch 1 (by decide)).1⟩

/-- C15 as stated fails at 17 reported channels: the count the module uses is 17, not 17
clamped to 16, the loop reaches `c = 16`, whose oscillator index `16 / 4 = 4` is outside
`oscillators[4]`, and the call has no result. -/
theorem C15_no_upper_clamp_counterexample :
    VCO.channelCount (idleModule 17).inputs = 17 ∧
    VCO.channelCount (idleModule 17).inputs ≠ min (max 17 1) 16 ∧
    16 ∈ VCO.batchLoop (VCO.channelCount (idleModule 17).inputs) 0 ∧
    ¬ (16 / 4 < 4) ∧
    VCO.process (recorder fun _ => Flt.fin 0) (fun x => x)
      { sampleRate := Flt.fin 44100, sampleTime := Flt.fin (1 / 44100) } (idleModule 17) =
        none := by
  have hcc : VCO.channelCount (idleModule 17).inputs = 17 := by
    simp [VCO.channelCount, idleModule]
  have hloop : VCO.batchLoop 17 0 = (List.range 4).map (fun b => 0 + 4 * b) ++ [16] := by
    rw [VCO.batchLoop_eq 17 5 0 (by decide)]
    decide
  refine ⟨hcc, by rw [hcc]; decide, by rw [hcc, hloop]; simp, by decide, ?_⟩
  obtain ⟨m4, hfold, _⟩ := VCO.foldlM_batches (recorder fun _ => Flt.fin 0) (fun x => x)
    { sampleRate := Flt.fin 44100, sampleTime := Flt.fin (1 / 44100) } 17 (idleModule 17) 4
    (le_refl 4)
  unfold VCO.process
  simp only [hcc]
  rw [hloop, List.foldlM_append, hfold]
  simp [VCO.batch_none _ _ _ _ m4 16 (by decide)]

/-! ## Lane independence -/

namespace VoltageControlledOscillator

variable {σ : Type}

theorem laneEvents_append (j : Fin 4) (s t : List (Flt × float_4)) :
    laneEvents j (s ++ t) = laneEvents j s ++ laneEvents j t := by
  simp [laneEvents, List.filter_append]

/-- The events of lane `j` among the first `n` loop iterations. -/
theorem laneEvents_range (c : float_4) (j : Fin 4) (n : Nat) :
    laneEvents j ((List.range n).filterMap fun i =>
        if i < 4 ∧ crossed (laneAt c i) = true then
          some (laneAt c i - Flt.fin 1,
            fun j : Fin 4 => if i = j.val then Flt.fin (-2) else Flt.fin 0)
        else none) =
      if j.val < n ∧ crossed (c j) = true then [(c j - Flt.fin 1, Flt.fin (-2))] else [] := by
  induction n with
  | zero => simp [laneEvents]
  | succ n ih =>
    rw [List.range_succ, List.filterMap_append, laneEvents_append, ih]
    by_cases hn : n = j.val
    · subst hn
      have h4 : j.val < 4 := j.isLt
      by_cases hc : crossed (c j) = true
      · have h : j.val < 4 ∧ crossed (laneAt c j.val) = true := ⟨h4, by simpa [laneAt] using hc⟩
        simp [h, hc, laneAt, laneEvents]
      · have h : ¬ (j.val < 4 ∧ crossed (laneAt c j.val) = true) := by
          rintro ⟨_, h⟩
          exact hc (by simpa [laneAt] using h)
        rw [List.filterMap_cons, if_neg h]
        simp [hc, laneEvents]
    · have hlt : (j.val < n + 1 ∧ crossed (c j) = true) ↔ (j.val < n ∧ crossed (c j) = true) := by
        constructor
        · rintro ⟨a, b⟩
          exact ⟨by omega, b⟩
        · rintro ⟨a, b⟩
          exact ⟨by omega, b⟩
      simp only [hlt]
      by_cases h : n < 4 ∧ crossed (laneAt c n) = true
      · simp [h, hn, laneEvents]
      · simp [h, laneEvents]

/-- The events one loop routes to lane `j`: one when the lane is active and crossed. -/
theorem laneEvents_insertions (channels : Int) (c : float_4) (j : Fin 4) :
    laneEvents j (insertions channels (crossingMask c) c) =
      if (j.val : Int) < channels ∧ crossed (c j) = true then
        [(c j - Flt.fin 1, Flt.fin (-2))]
      else [] := by
  rw [insertions_eq, laneEvents_range]
  have : j.val < channels.toNat ↔ (j.val : Int) < channels := by omega
  simp only [this]

/-- The events of an active lane with finite inputs are those of the scalar voice. -/
theorem laneEvents_scalar (o : VoltageControlledOscillator σ) (T : float_4) (i : Fin 4)
    (p f w pw t : ℚ) (a : Bool) (hi : (i.val : Int) < o.channels)
    (hp : o.phase i = Flt.fin p) (hf : o.freq i = Flt.fin f) (hw : T i = Flt.fin w) :
    laneEvents i (insertions o.channels (crossingMask (o.crossing (Flt.fin t) T))
        (o.crossing (Flt.fin t) T)) =
      asLaneEvents ((ScalarVoice.mk p f pw a).events t w) := by
  have hd := deltaPhase_eq o i f t hf
  obtain ⟨d', hd', hd0, _⟩ := o.deltaPhase_fin (Flt.fin t) i
  rw [hd] at hd'
  have hd0' : 0 ≤ min (max (f * t) 0) (7 / 20) := by
    rw [Flt.fin.inj hd']
    exact hd0
  have hcr := crossing_fin o (Flt.fin t) T i p _ w hp hd hw
  rw [laneEvents_insertions, hcr]
  simp only [ScalarVoice.events, ScalarVoice.deltaPhase, ScalarVoice.advance, wrap]
  by_cases hz : min (max (f * t) 0) (7 / 20) = 0
  · rw [if_pos hz]
    have hfalse : ¬ ((i.val : Int) < o.channels ∧ crossed
        (Flt.fin (w - (p + min (max (f * t) 0) (7 / 20) -
            (⌊p + min (max (f * t) 0) (7 / 20)⌋ : ℤ) - min (max (f * t) 0) (7 / 20))) /
          Flt.fin (min (max (f * t) 0) (7 / 20))) = true) := by
      rintro ⟨_, h⟩
      rw [crossed_div _ _ hd0'] at h
      exact absurd h.1 (by rw [hz]; exact lt_irrefl 0)
    rw [if_neg hfalse]
    rfl
  · rw [if_neg hz, Flt.fin_div_fin, if_neg hz]
    simp only [crossed, Flt.lt_fin_fin, Flt.le_fin_fin, Bool.and_eq_true, decide_eq_true_eq,
      hi, true_and]
    split_ifs
    · simp [asLaneEvents]
    · rfl

end VoltageControlledOscillator

/-- C18: on an active lane `i` with finite phase, frequency and pulse width, one call of
the 4-lane `process` gives lane `i` the new phase, the naive square and saw values and the
sequences of (offset, amplitude) events of both correctors that the scalar voice of the
specification computes from lane `i` alone; and an oscillator that agrees in lane `i`
(and in the lane count and ramp mode) gives lane `i` the same results, whatever its other
lanes hold. -/
theorem C18_lane_independence {σ : Type} (M : MinBlepGenerator σ) (syncValue : float_4)
    (o : VoltageControlledOscillator σ) (i : Fin 4) (p f w t : ℚ)
    (hi : (i.val : Int) < o.channels) (hp : o.phase i = Flt.fin p)
    (hf : o.freq i = Flt.fin f) (hw : o.pulseWidth i = Flt.fin w) :
    (process M (Flt.fin t) syncValue o).phase i =
      Flt.fin ((ScalarVoice.mk p f w o.analog).advance t) ∧
    (process M (Flt.fin t) syncValue o).sqr (process M (Flt.fin t) syncValue o).phase i =
      Flt.fin ((ScalarVoice.mk p f w o.analog).sqr ((ScalarVoice.mk p f w o.analog).advance t)) ∧
    (process M (Flt.fin t) syncValue o).saw (process M (Flt.fin t) syncValue o).phase i =
      Flt.fin ((ScalarVoice.mk p f w o.analog).saw ((ScalarVoice.mk p f w o.analog).advance t)) ∧
    laneEvents i (o.pulseInsertions (Flt.fin t)) =
      asLaneEvents ((ScalarVoice.mk p f w o.analog).events t w) ∧
    laneEvents i (o.halfInsertions (Flt.fin t)) =
      asLaneEvents ((ScalarVoice.mk p f w o.analog).events t (1 / 2)) ∧
    ∀ (deltaTime : Flt) (o' : VoltageControlledOscillator σ),
      o'.phase i = o.phase i → o'.freq i = o.freq i → o'.pulseWidth i = o.pulseWidth i →
      o'.analog = o.analog → o'.channels = o.channels →
      (process M deltaTime syncValue o').phase i = (process M deltaTime syncValue o).phase i ∧
      (process M deltaTime syncValue o').sqr (process M deltaTime syncValue o').phase i =
        (process M deltaTime syncValue o).sqr (process M deltaTime syncValue o).phase i ∧
      (process M deltaTime syncValue o').saw (process M deltaTime syncValue o').phase i =
        (process M deltaTime syncValue o).saw (process M deltaTime syncValue o).phase i ∧
      laneEvents i (o'.pulseInsertions deltaTime) = laneEvents i (o.pulseInsertions deltaTime) ∧
      laneEvents i (o'.halfInsertions deltaTime) = laneEvents i (o.halfInsertions deltaTime) := by
  have hd := deltaPhase_eq o i f t hf
  have hadv : o.advance (Flt.fin t) i =
      Flt.fin ((ScalarVoice.mk p f w o.analog).advance t) :=
    advance_fin o (Flt.fin t) i p _ hp hd
  have hq0 : 0 ≤ (ScalarVoice.mk p f w o.analog).advance t := wrap_nonneg _
  refine ⟨hadv, ?_, ?_, ?_, ?_, ?_⟩
  · show Flt.ifelse (Flt.lt (o.advance (Flt.fin t) i) (o.pulseWidth i)) (Flt.fin 1)
      (Flt.fin (-1)) = _
    rw [hadv, hw]
    simp only [Flt.ifelse, Flt.lt_fin_fin, decide_eq_true_eq, ScalarVoice.sqr]
    split_ifs <;> rfl
  · show o.saw (o.advance (Flt.fin t)) i = _
    cases ha : o.analog with
    | false =>
      rw [saw_linear o _ i _ ha hadv hq0]
      simp [ScalarVoice.saw, ha]
    | true =>
      rw [saw_analog o _ i _ ha hadv hq0,
        expCurve_fin _ (ne_of_gt (shape_den_pos _ (wrap_nonneg _))), Flt.neg_fin]
      simp [ScalarVoice.saw, ha]
  · exact laneEvents_scalar o o.pulseWidth i p f w w t o.analog hi hp hf hw
  · exact laneEvents_scalar o (fun _ => Flt.fin (1 / 2)) i p f (1 / 2) w t o.analog hi hp hf rfl
  · intro deltaTime o' h1 h2 h3 h4 h5
    have hdp : o'.deltaPhase deltaTime i = o.deltaPhase deltaTime i := by
      simp only [deltaPhase, h2]
    have hadv' : o'.advance deltaTime i = o.advance deltaTime i := by
      simp only [advance, h1, hdp]
    have hcr : ∀ T T' : float_4, T' i = T i →
        o'.crossing deltaTime T' i = o.crossing deltaTime T i := by
      intro T T' hT
      simp only [crossing, hT, hadv', hdp]
    refine ⟨hadv', ?_, ?_, ?_, ?_⟩
    · show Flt.ifelse (Flt.lt (o'.advance deltaTime i) (o'.pulseWidth i)) _ _ =
        Flt.ifelse (Flt.lt (o.advance deltaTime i) (o.pulseWidth i)) _ _
      rw [hadv', h3]
    · show o'.saw (o'.advance deltaTime) i = o.saw (o.advance deltaTime) i
      simp only [saw, hadv', h4]
    · simp only [pulseInsertions, pulseCrossing, laneEvents_insertions, h5,
        hcr o.pulseWidth o'.pulseWidth h3]
    · simp only [halfInsertions, halfCrossing, laneEvents_insertions, h5,
        hcr (fun _ => Flt.fin (1 / 2)) (fun _ => Flt.fin (1 / 2)) rfl]

/-- C18 at lane 0 of an oscillator at phase 0.4, 8820 Hz, pulse width 0.5, with 44100 Hz:
the new phase is the one of the scalar voice. -/
theorem C18_lane_independence_witness :
    (process (recorder fun _ => Flt.fin 0) (Flt.fin (1 / 44100)) (fun _ => Flt.fin 0)
        { init [] [] with
          channels := 1, phase := fun _ => Flt.fin (2 / 5),
          freq := fun _ => Flt.fin 8820 }).phase 0 =
      Flt.fin ((ScalarVoice.mk (2 / 5) 8820 (1 / 2) false).advance (1 / 44100)) :=
  (C18_lane_independence (recorder fun _ => Flt.fin 0) (fun _ => Flt.fin 0)
    { init [] [] with
      channels := 1, phase := fun _ => Flt.fin (2 / 5), freq := fun _ => Flt.fin 8820 }
    0 (2 / 5) 8820 (1 / 2) (1 / 44100) (by decide) rfl rfl rfl).1

/-- C15, amended: for every channel count `n ≤ 16` reported by the pitch input the count
`VCO::process` uses is `max(n, 1)`, which is at least 1 and at most 16; every oscillator
index `c / 4` of the loop is below 4; the call has a result, and the count passed to
`setChannels` of both outputs is `max(n, 1)`. -/
theorem C15_channel_count_lower_clamp {σ : Type} (M : MinBlepGenerator σ) (exp2 : Flt → Flt)
    (args : ProcessArgs) (m : VCO σ) (n : Int)
    (hn : (m.inputs InputId._1V_INPUT).channels = n) (h16 : n ≤ 16) :
    VCO.channelCount m.inputs = max n 1 ∧
    1 ≤ VCO.channelCount m.inputs ∧ VCO.channelCount m.inputs ≤ 16 ∧
    (∀ c ∈ VCO.batchLoop (VCO.channelCount m.inputs) 0, c / 4 < 4) ∧
    ∃ m' : VCO σ, VCO.process M exp2 args m = some m' ∧
      ∀ id, (m'.outputs id).channels = max n 1 := by
  have hcc : VCO.channelCount m.inputs = max n 1 := by
    rw [VCO.channelCount, hn]
  refine ⟨hcc, by rw [hcc]; exact le_max_right _ _, by rw [hcc]; omega, ?_, ?_⟩
  · intro c hc
    rw [VCO.batchLoop_eq _ (((VCO.channelCount m.inputs).toNat + 3) / 4) 0 (by simp),
      List.mem_map] at hc
    obtain ⟨b, hb, rfl⟩ := hc
    rw [List.mem_range, hcc] at hb
    omega
  · obtain ⟨m', hproc, hout, _⟩ := VCO.process_some M exp2 args m (by rw [hcc]; omega)
    exact ⟨m', hproc, fun id => by rw [hout id, hcc]⟩

/-- C15 amended, at a disconnected pitch input (0 channels): one voice is used and
reported. -/
theorem C15_channel_count_lower_clamp_witness :
    VCO.channelCount (idleModule 0).inputs = max 0 1 ∧
    1 ≤ VCO.channelCount (idleModule 0).inputs ∧
    VCO.channelCount (idleModule 0).inputs ≤ 16 ∧
    (∀ c ∈ VCO.batchLoop (VCO.channelCount (idleModule 0).inputs) 0, c / 4 < 4) ∧
    ∃ m' : VCO (List Call),
      VCO.process (recorder fun _ => Flt.fin 0) (fun x => x)
        { sampleRate := Flt.fin 44100, sampleTime := Flt.fin (1 / 44100) }
        (idleModule 0) = some m' ∧
      ∀ id, (m'.outputs id).channels = max 0 1 :=
  C15_channel_count_lower_clamp (recorder fun _ => Flt.fin 0) (fun x => x)
    { sampleRate := Flt.fin 44100, sampleTime := Flt.fin (1 / 44100) }
    (idleModule 0) 0 rfl (by decide)

/-! ## The crossing detector in binary32

The runs below are evaluated in binary32.  `Binary32.run f w r k` is the oscillator as
constructed, lane 0 active, frequency `f` and pulse width `w`, after `k` calls of
`process` at sample rate `r`. -/

/-- C16, where the code breaks it: the crossing formulas subtract `phase - deltaPhase`,
computed after the advance and the wrap, and that is not the pre-tick phase.  At 8000 Hz
and 48 kHz the third call starts from phase `0x3EAAAAAB` (0.33333334), does not wrap, and
the formulas use `0x3EAAAAAA` (0.33333331).  At 13230 Hz and 44.1 kHz the fourth call
starts from phase `0x3F666666` (0.9), wraps, and the formulas use `-0.10000005`. -/
theorem C16_prephase_not_recovered :
    (Binary32.run (Flt.fin 8000) (Flt.fin (1 / 2)) 48000 2).phase 0 =
      Flt.fin (11184811 / 33554432) ∧
    (Binary32.run (Flt.fin 8000) (Flt.fin (1 / 2)) 48000 3).phase 0 = Flt.fin (1 / 2) ∧
    Binary32.prePhase (Binary32.run (Flt.fin 8000) (Flt.fin (1 / 2)) 48000 2)
      (Binary32.sampleTime 48000) 0 = Flt.fin (5592405 / 16777216) ∧
    Binary32.prePhase (Binary32.run (Flt.fin 8000) (Flt.fin (1 / 2)) 48000 2)
        (Binary32.sampleTime 48000) 0 ≠
      (Binary32.run (Flt.fin 8000) (Flt.fin (1 / 2)) 48000 2).phase 0 ∧
    (Binary32.run (Flt.fin 13230) (Flt.round32 (Flt.fin (19 / 20))) 44100 3).phase 0 =
      Flt.fin (7549747 / 8388608) ∧
    (Binary32.run (Flt.fin 13230) (Flt.round32 (Flt.fin (19 / 20))) 44100 4).phase 0 =
      Flt.fin (1677721 / 8388608) ∧
    Binary32.prePhase (Binary32.run (Flt.fin 13230) (Flt.round32 (Flt.fin (19 / 20))) 44100 3)
      (Binary32.sampleTime 44100) 0 = Flt.fin (-3355445 / 33554432) := by
  refine ⟨by decide!, by decide!, by decide!, by decide!, by decide!, by decide!, by decide!⟩

/-- C5, where the code breaks it.  At 8000 Hz and 48 kHz with pulse width 0.5 the third
call of `process` starts from phase `p = 0x3EAAAAAB` with step `d = 0x3E2AAAAB`, so
`p < 0.5 ≤ p + d`; the phase becomes 0.5, `halfCrossing` is `0x3F800001` (1.00000012),
above 1, and nothing is inserted into the saw corrector.  At 4000 Hz the seventh call
starts from phase exactly 0.5, so `p < 0.5` is false, and it inserts a saw event. -/
theorem C5_saw_crossing_missed :
    (Binary32.run (Flt.fin 8000) (Flt.fin (1 / 2)) 48000 2).phase 0 =
      Flt.fin (11184811 / 33554432) ∧
    Binary32.deltaPhase (Binary32.run (Flt.fin 8000) (Flt.fin (1 / 2)) 48000 2)
      (Binary32.sampleTime 48000) 0 = Flt.fin (11184811 / 67108864) ∧
    ((11184811 / 33554432 : ℚ) < 1 / 2 ∧
      (1 / 2 : ℚ) ≤ 11184811 / 33554432 + 11184811 / 67108864) ∧
    Binary32.halfCrossing (Binary32.run (Flt.fin 8000) (Flt.fin (1 / 2)) 48000 2)
      (Binary32.sampleTime 48000) 0 = Flt.fin (8388609 / 8388608) ∧
    laneCount 0 (Binary32.halfInsertions (Binary32.run (Flt.fin 8000) (Flt.fin (1 / 2)) 48000 2)
      (Binary32.sampleTime 48000)) = 0 ∧
    insertsFor 0 (Binary32.run (Flt.fin 8000) (Flt.fin (1 / 2)) 48000 3).sawMinBlep = 0 ∧
    (Binary32.run (Flt.fin 4000) (Flt.fin (1 / 2)) 48000 6).phase 0 = Flt.fin (1 / 2) ∧
    laneCount 0 (Binary32.halfInsertions (Binary32.run (Flt.fin 4000) (Flt.fin (1 / 2)) 48000 6)
      (Binary32.sampleTime 48000)) = 1 := by
  refine ⟨by decide!, by decide!, ⟨by norm_num, by norm_num⟩, by decide!, by decide!,
    by decide!, by decide!, by decide!⟩

/-- C6, where the code breaks it: `n = 6`, `K = 1` and `K = 2`.  At 8000 Hz and 48 kHz
the step is the binary32 number nearest to `1 / 6`; from phase 0 with pulse width 0.5 the
phase is back at exactly 0 after 6 calls of `process`, and after 6 and after 12 calls
neither corrector has received an insertion for the lane. -/
theorem C6_no_edge_at_one_sixth :
    Binary32.deltaPhase (Binary32.run (Flt.fin 8000) (Flt.fin (1 / 2)) 48000 0)
      (Binary32.sampleTime 48000) 0 = Flt.round32 (Flt.fin (1 / 6)) ∧
    (Binary32.run (Flt.fin 8000) (Flt.fin (1 / 2)) 48000 6).phase 0 = Flt.fin 0 ∧
    insertsFor 0 (Binary32.run (Flt.fin 8000) (Flt.fin (1 / 2)) 48000 6).sqrMinBlep = 0 ∧
    insertsFor 0 (Binary32.run (Flt.fin 8000) (Flt.fin (1 / 2)) 48000 6).sawMinBlep = 0 ∧
    insertsFor 0 (Binary32.run (Flt.fin 8000) (Flt.fin (1 / 2)) 48000 12).sqrMinBlep = 0 ∧
    insertsFor 0 (Binary32.run (Flt.fin 8000) (Flt.fin (1 / 2)) 48000 12).sawMinBlep = 0 := by
  refine ⟨by decide!, by decide!, by decide!, by decide!, by decide!, by decide!⟩

/-- C7, where the code breaks it.  With pulse width `0.01f`, one call at 480 Hz and
48 kHz takes the phase from 0 to `0.01f`; the frequency is then set to 24000 Hz (step
clamped to `0.35f`), and the next call computes the crossing fraction
`c = 0x32E49249` (2.66e-8), which passes `(0 < c) & (c <= 1)`, and inserts a square
discontinuity whose offset `c - 1.f` is exactly `-1`. -/
theorem C7_offset_reaches_minus_one :
    (Binary32.run (Flt.fin 480) (Flt.round32 (Flt.fin (1 / 100))) 48000 1).phase 0 =
      Flt.round32 (Flt.fin (1 / 100)) ∧
    Binary32.deltaPhase
      { Binary32.run (Flt.fin 480) (Flt.round32 (Flt.fin (1 / 100))) 48000 1 with
        freq := fun _ => Flt.fin 24000 }
      (Binary32.sampleTime 48000) 0 = Flt.round32 (Flt.fin (7 / 20)) ∧
    Binary32.pulseCrossing
      { Binary32.run (Flt.fin 480) (Flt.round32 (Flt.fin (1 / 100))) 48000 1 with
        freq := fun _ => Flt.fin 24000 }
      (Binary32.sampleTime 48000) 0 = Flt.fin (14979657 / 562949953421312) ∧
    crossed (Flt.fin (14979657 / 562949953421312)) = true ∧
    laneEvents 0 (Binary32.pulseInsertions
      { Binary32.run (Flt.fin 480) (Flt.round32 (Flt.fin (1 / 100))) 48000 1 with
        freq := fun _ => Flt.fin 24000 }
      (Binary32.sampleTime 48000)) = [(Flt.fin (-1), Flt.fin (-2))] := by
  refine ⟨by decide!, by decide!, by decide!, by decide!, by decide!⟩

/-- C17, where the code breaks it.  At 4000 Hz and 48 kHz with pulse width 0.5 the
seventh call of `process` starts from phase exactly 0.5, equal to the pulse width, and
does not wrap, so the phase passes no pulse-width boundary in it (`p < w` is false, and
`w + 1 ≤ p + d` is false); the call computes the crossing fraction `3 * 2^-23` from
`phase - deltaPhase = 0x3EFFFFFF` and inserts a square discontinuity for the lane. -/
theorem C17_edge_inserted_without_crossing :
    (Binary32.run (Flt.fin 4000) (Flt.fin (1 / 2)) 48000 6).phase 0 = Flt.fin (1 / 2) ∧
    (Binary32.run (Flt.fin 4000) (Flt.fin (1 / 2)) 48000 6).pulseWidth 0 = Flt.fin (1 / 2) ∧
    Binary32.deltaPhase (Binary32.run (Flt.fin 4000) (Flt.fin (1 / 2)) 48000 6)
      (Binary32.sampleTime 48000) 0 = Flt.fin (11184811 / 134217728) ∧
    (¬ ((1 / 2 : ℚ) < 1 / 2) ∧ ¬ ((1 / 2 : ℚ) + 1 ≤ 1 / 2 + 11184811 / 134217728)) ∧
    Binary32.prePhase (Binary32.run (Flt.fin 4000) (Flt.fin (1 / 2)) 48000 6)
      (Binary32.sampleTime 48000) 0 = Flt.fin (16777215 / 33554432) ∧
    Binary32.pulseCrossing (Binary32.run (Flt.fin 4000) (Flt.fin (1 / 2)) 48000 6)
      (Binary32.sampleTime 48000) 0 = Flt.fin (3 / 8388608) ∧
    laneEvents 0 (Binary32.pulseInsertions (Binary32.run (Flt.fin 4000) (Flt.fin (1 / 2)) 48000 6)
      (Binary32.sampleTime 48000)) = [(Flt.fin (-8388605 / 8388608), Flt.fin (-2))] ∧
    insertsFor 0 (Binary32.run (Flt.fin 4000) (Flt.fin (1 / 2)) 48000 6).sqrMinBlep = 0 ∧
    insertsFor 0 (Binary32.run (Flt.fin 4000) (Flt.fin (1 / 2)) 48000 7).sqrMinBlep = 1 := by
  refine ⟨by decide!, by decide!, by decide!, ⟨by norm_num, by norm_num⟩, by decide!,
    by decide!, by decide!, by decide!, by decide!⟩

/-- C20, where the code breaks it.  With analog mode off, at 8000 Hz and 48 kHz, the
third call of `process` takes the phase from `0x3EAAAAAB` to 0.5; the naive saw falls
from 0.6666667 to -1, and the call inserts no saw discontinuity for the lane. -/
theorem C20_saw_drops_without_event :
    (Binary32.run (Flt.fin 8000) (Flt.fin (1 / 2)) 48000 2).analog = false ∧
    Binary32.saw (Binary32.run (Flt.fin 8000) (Flt.fin (1 / 2)) 48000 2)
      (Binary32.run (Flt.fin 8000) (Flt.fin (1 / 2)) 48000 2).phase 0 =
        Flt.fin (2796203 / 4194304) ∧
    Binary32.saw (Binary32.run (Flt.fin 8000) (Flt.fin (1 / 2)) 48000 3)
      (Binary32.run (Flt.fin 8000) (Flt.fin (1 / 2)) 48000 3).phase 0 = Flt.fin (-1) ∧
    (-1 : ℚ) < 2796203 / 4194304 ∧
    insertsFor 0 (Binary32.run (Flt.fin 8000) (Flt.fin (1 / 2)) 48000 2).sawMinBlep = 0 ∧
    insertsFor 0 (Binary32.run (Flt.fin 8000) (Flt.fin (1 / 2)) 48000 3).sawMinBlep = 0 := by
  refine ⟨by decide!, by decide!, by decide!, by norm_num, by decide!, by decide!⟩

namespace Flt

end Flt

namespace Flt

end Flt

end ModularSynth
